import Mathlib

/-!
Verification development for the ai-bookawards consolidation-and-enrichment
pipeline.  The Python sources `merge_json_files.py` (merge engine) and
`BookawardScraper.py` (enrichment orchestrator and extractor) are shallowly
embedded below: JSON values become an inductive type, Python dicts become
insertion-ordered association lists, the fallible dict accesses become
`Option`, and the imperative enrichment loop becomes explicit state passing
over a per-record event trace.  Machine-level concerns (actual file IO,
HTTP) are abstracted into the event trace exactly where the code branches
on their outcome.
-/

/-- The whitespace set of Python's `str.strip()` with no argument,
restricted to the ASCII whitespace characters (space, tab, newline,
carriage return, vertical tab, form feed); the source data is ASCII-keyed
so the Unicode extras of CPython never fire here. -/
def isPySpace (c : Char) : Bool :=
  c = ' ' || c = '\t' || c = '\n' || c = '\r' || c = '\x0b' || c = '\x0c'

/-- Python `str.strip()` on the character list: drop trailing whitespace
(via reverse), then leading whitespace. -/
def trimChars (l : List Char) : List Char :=
  ((l.reverse.dropWhile isPySpace).reverse).dropWhile isPySpace

/-- Python `str.strip()`: remove leading and trailing whitespace. -/
def pyStrip (s : String) : String :=
  String.mk (trimChars s.data)

/-- JSON values as produced by Python's `json.loads`: null, booleans,
numbers, strings, arrays and objects.  An integer literal decodes to
`num`; a literal with a fraction or exponent, and the `NaN`, `Infinity`
and `-Infinity` constants that `json.loads` accepts by default, decode to
a Python float, represented here as `fnum` carrying the source token: the
pipeline never computes with the numeric value (payloads are only stored
and re-serialized), so the token is a faithful stand-in for the IEEE
double, whose arithmetic is outside this embedding. -/
inductive JsonVal where
  | null
  | bool (b : Bool)
  | num (n : Int)
  | fnum (lit : String)
  | str (s : String)
  | arr (xs : List JsonVal)
  | obj (fields : List (String × JsonVal))

/-- A Python dict with string keys, as an insertion-ordered association
list with unique keys (maintained by `dinsert`). -/
abbrev Dict := List (String × JsonVal)

/-- Python `d[k]` as a total lookup: `none` models a `KeyError`. -/
def dgetOpt (d : Dict) (k : String) : Option JsonVal :=
  match d with
  | [] => none
  | (k', v) :: rest => if k' = k then some v else dgetOpt rest k

/-- Python `d[k] = v`: replace in place when the key exists (CPython keeps
the key's original insertion position), append otherwise. -/
def dinsert (d : Dict) (k : String) (v : JsonVal) : Dict :=
  match d with
  | [] => [(k, v)]
  | (k', v') :: rest => if k' = k then (k, v) :: rest else (k', v') :: dinsert rest k v

/-- Lexicographic strict comparison of character lists by code point,
Python's `<` on `str`. -/
def strLtB : List Char → List Char → Bool
  | _, [] => false
  | [], _ :: _ => true
  | a :: as, b :: bs =>
    if a.toNat < b.toNat then true
    else if b.toNat < a.toNat then false
    else strLtB as bs

/-- Python `a < b` on strings. -/
def pyStrLt (a b : String) : Bool := strLtB a.data b.data

/-- Python `a <= b` on strings (total order complement of `pyStrLt`). -/
def pyStrLe (a b : String) : Bool := ! pyStrLt b a

/-- The `merged` dict of `merge_awards`: keys are stripped award names,
values are award dicts, in insertion order. -/
abbrev AwardMap := List (String × Dict)

/-- Lookup in the `merged` dict. -/
def amapLookup (m : AwardMap) (k : String) : Option Dict :=
  match m with
  | [] => none
  | (k', v) :: rest => if k' = k then some v else amapLookup rest k

/-- Assignment `merged[k] = v`: replace in place when the key exists, append otherwise
(CPython dict semantics). -/
def amapInsert (m : AwardMap) (k : String) (v : Dict) : AwardMap :=
  match m with
  | [] => [(k, v)]
  | (k', v') :: rest => if k' = k then (k, v) :: rest else (k', v') :: amapInsert rest k v

/-- The value fed to `award['award_name'].strip()`: the `award_name` value
when present and a string, `none` when the access or `.strip()` would
raise (`KeyError` / `AttributeError`). -/
def awardNameStr (award : Dict) : Option String :=
  match dgetOpt award "award_name" with
  | some (JsonVal.str s) => some s
  | _ => none

/-- Python `merge_json_files.convert_name_to_award_dict`: a fresh award dict for
a bare name, with empty defaults. -/
def convert_name_to_award_dict (name : String) : Dict :=
  [("award_name", JsonVal.str (pyStrip name)),
   ("registration_url", JsonVal.str ""),
   ("categories", JsonVal.arr []),
   ("organization", JsonVal.str "")]

/-- First loop of `merge_awards`: insert every detailed award under its
stripped `award_name`; a missing (or non-string) `award_name` raises, so
the whole call fails (`none`). -/
def addDetailed (awards : List Dict) (m : AwardMap) : Option AwardMap :=
  match awards with
  | [] => some m
  | award :: rest =>
    match awardNameStr award with
    | some s => addDetailed rest (amapInsert m (pyStrip s) award)
    | none => none

/-- Second loop of `merge_awards`: add each stripped name that is
non-empty and not yet a key, as a fresh default record. -/
def addNames (names : List String) (m : AwardMap) : AwardMap :=
  match names with
  | [] => m
  | n :: rest =>
    let name := pyStrip n
    if name = "" then addNames rest m
    else if (amapLookup m name).isSome then addNames rest m
    else addNames rest (amapInsert m name (convert_name_to_award_dict name))

/-- Sort key of the final `sorted(..., key=lambda x: x['award_name'])`.
Every value in the map carries a string `award_name` (enforced during
insertion), so the fallback branch is unreachable there. -/
def sortKey (d : Dict) : String :=
  match dgetOpt d "award_name" with
  | some (JsonVal.str s) => s
  | _ => ""

/-- Stable insertion of an award into an already sorted list: the new
element goes before the first element it is `<=` to, hence after any
earlier-listed element with an equal key — the tie behaviour of Python's
stable `sorted`. -/
def insertByName (x : Dict) (l : List Dict) : List Dict :=
  match l with
  | [] => [x]
  | y :: ys => if pyStrLe (sortKey x) (sortKey y) then x :: y :: ys else y :: insertByName x ys

/-- Python's stable `sorted(values, key=lambda x: x['award_name'])` as a
stable insertion sort. -/
def sortAwards (l : List Dict) : List Dict :=
  match l with
  | [] => []
  | x :: xs => insertByName x (sortAwards xs)

/-- Python `merge_json_files.merge_awards`: build the `merged` dict from the
detailed awards, add missing names, and return the values sorted by
`award_name`.  `none` models the `KeyError`/`AttributeError` raised when
a detailed entry lacks a string `award_name`. -/
def merge_awards (detailed_awards : List Dict) (award_names : List String) :
    Option (List Dict) :=
  match addDetailed detailed_awards [] with
  | none => none
  | some m => some (sortAwards ((addNames award_names m).map Prod.snd))

/-- JSON insignificant whitespace (RFC 8259, as accepted by `json.loads`). -/
def isJsonWs (c : Char) : Bool := c = ' ' || c = '\t' || c = '\n' || c = '\r'

/-- Skip insignificant whitespace. -/
def skipWs (cs : List Char) : List Char := cs.dropWhile isJsonWs

/-- ASCII decimal digit test. -/
def isDigitC (c : Char) : Bool := 48 ≤ c.toNat && c.toNat ≤ 57

/-- Hexadecimal digit value. -/
def hexVal (c : Char) : Option Nat :=
  if 48 ≤ c.toNat && c.toNat ≤ 57 then some (c.toNat - 48)
  else if 97 ≤ c.toNat && c.toNat ≤ 102 then some (c.toNat - 87)
  else if 65 ≤ c.toNat && c.toNat ≤ 70 then some (c.toNat - 55)
  else none

/-- Body of a JSON string literal, after the opening quote: returns the
decoded characters and the remainder after the closing quote.  Escapes are
the RFC 8259 set; a `\u` escape encoding a high surrogate followed by a
`\u` low surrogate is combined into its astral code point exactly as
`json.loads` does; unescaped control characters are rejected as in
`json.loads` strict mode.  A lone surrogate escape, which `json.loads`
keeps as an unpaired surrogate inside the Python `str`, has no
counterpart in Lean's `String` (valid Unicode scalars only) and is the
one string shape this embedding rejects instead of representing. -/
def parseStrChars (acc : List Char) (cs : List Char) : Option (List Char × List Char) :=
  match cs with
  | [] => none
  | '"' :: r => some (acc, r)
  | '\\' :: esc =>
    match esc with
    | '"' :: r => parseStrChars (acc ++ ['"']) r
    | '\\' :: r => parseStrChars (acc ++ ['\\']) r
    | '/' :: r => parseStrChars (acc ++ ['/']) r
    | 'b' :: r => parseStrChars (acc ++ ['\x08']) r
    | 'f' :: r => parseStrChars (acc ++ ['\x0c']) r
    | 'n' :: r => parseStrChars (acc ++ ['\n']) r
    | 'r' :: r => parseStrChars (acc ++ ['\r']) r
    | 't' :: r => parseStrChars (acc ++ ['\t']) r
    | 'u' :: h1 :: h2 :: h3 :: h4 :: r =>
      match hexVal h1, hexVal h2, hexVal h3, hexVal h4 with
      | some a, some b, some c, some d =>
        let n := ((a * 16 + b) * 16 + c) * 16 + d
        if 0xD800 ≤ n ∧ n ≤ 0xDBFF then
          match r with
          | '\\' :: 'u' :: g1 :: g2 :: g3 :: g4 :: r2 =>
            match hexVal g1, hexVal g2, hexVal g3, hexVal g4 with
            | some e1, some e2, some e3, some e4 =>
              let m := ((e1 * 16 + e2) * 16 + e3) * 16 + e4
              if 0xDC00 ≤ m ∧ m ≤ 0xDFFF then
                parseStrChars
                  (acc ++ [Char.ofNat (0x10000 + (n - 0xD800) * 0x400 + (m - 0xDC00))]) r2
              else none
            | _, _, _, _ => none
          | _ => none
        else if 0xDC00 ≤ n ∧ n ≤ 0xDFFF then none
        else parseStrChars (acc ++ [Char.ofNat n]) r
      | _, _, _, _ => none
    | _ => none
  | c :: r => if c.toNat < 32 then none else parseStrChars (acc ++ [c]) r

/-- A JSON number token, mirroring CPython's scanner: the regular
expression (-?(0 or nonzero digits))(.digits)? ((e or E)(sign)?digits)?
with its longest-partial-match semantics (a bare `.` or a dangling
exponent simply ends the match early, leaving the offending character as
remainder for the caller's delimiter check), followed by the `NaN`,
`Infinity` and `-Infinity` constants that `json.loads` accepts by
default.  An all-integer match decodes with `parse_int` to `num`; a match
with a fraction or exponent, or a constant, decodes with `parse_float` to
a Python float, carried here as `fnum` of the matched literal. -/
def parseNumTok (cs : List Char) : Option (JsonVal × List Char) :=
  match cs with
  | 'N' :: 'a' :: 'N' :: r => some (JsonVal.fnum "NaN", r)
  | 'I' :: 'n' :: 'f' :: 'i' :: 'n' :: 'i' :: 't' :: 'y' :: r =>
    some (JsonVal.fnum "Infinity", r)
  | '-' :: 'I' :: 'n' :: 'f' :: 'i' :: 'n' :: 'i' :: 't' :: 'y' :: r =>
    some (JsonVal.fnum "-Infinity", r)
  | _ =>
    let neg : Bool := match cs with
      | '-' :: _ => true
      | _ => false
    let cs1 := if neg then cs.drop 1 else cs
    match cs1 with
    | [] => none
    | c :: rest =>
      let intPart : Option (List Char × List Char) :=
        if c = '0' then some (['0'], rest)
        else if isDigitC c then
          some ((c :: rest).takeWhile isDigitC, (c :: rest).dropWhile isDigitC)
        else none
      match intPart with
      | none => none
      | some (ds, r1) =>
        let fr : List Char × List Char :=
          match r1 with
          | '.' :: d :: fs =>
            if isDigitC d then
              ('.' :: (d :: fs).takeWhile isDigitC, (d :: fs).dropWhile isDigitC)
            else ([], r1)
          | _ => ([], r1)
        let r2 := fr.2
        let ex : List Char × List Char :=
          match r2 with
          | e :: more =>
            if e = 'e' || e = 'E' then
              match more with
              | s :: d :: es =>
                if (s = '+' || s = '-') && isDigitC d then
                  (e :: s :: (d :: es).takeWhile isDigitC, (d :: es).dropWhile isDigitC)
                else if isDigitC s then
                  (e :: (s :: d :: es).takeWhile isDigitC, (s :: d :: es).dropWhile isDigitC)
                else ([], r2)
              | [s] => if isDigitC s then ([e, s], []) else ([], r2)
              | [] => ([], r2)
            else ([], r2)
          | [] => ([], r2)
        if fr.1.isEmpty && ex.1.isEmpty then
          let n : Nat := ds.foldl (fun a d => a * 10 + (d.toNat - 48)) 0
          some (JsonVal.num (if neg then -(n : Int) else (n : Int)), r1)
        else
          some (JsonVal.fnum (String.mk
            ((if neg then ['-'] else []) ++ ds ++ fr.1 ++ ex.1)), ex.2)

/-- Parser nonterminal: a value, the members of an object after `{`, or
the elements of an array after `[`. -/
inductive PMode where
  | value
  | objRest (acc : List (String × JsonVal))
  | arrRest (acc : List JsonVal)

/-- Recursive descent over JSON text, structural in `fuel` so that the
kernel can evaluate it; `fuel` bounds the number of nested parse steps and
is instantiated generously by `parseJsonL`.  Duplicate object keys follow
`json.loads`: the later value wins, at the key's first position
(`dinsert`). -/
def parseP (fuel : Nat) (m : PMode) (cs : List Char) : Option (JsonVal × List Char) :=
  match fuel with
  | 0 => none
  | fuel + 1 =>
    match m with
    | PMode.value =>
      match skipWs cs with
      | [] => none
      | c :: rest =>
        if c = '{' then
          match skipWs rest with
          | '}' :: r2 => some (JsonVal.obj [], r2)
          | _ => parseP fuel (PMode.objRest []) rest
        else if c = '[' then
          match skipWs rest with
          | ']' :: r2 => some (JsonVal.arr [], r2)
          | _ => parseP fuel (PMode.arrRest []) rest
        else if c = '"' then
          match parseStrChars [] rest with
          | some (s, r2) => some (JsonVal.str (String.mk s), r2)
          | none => none
        else if c = 't' then
          match rest with
          | 'r' :: 'u' :: 'e' :: r2 => some (JsonVal.bool true, r2)
          | _ => none
        else if c = 'f' then
          match rest with
          | 'a' :: 'l' :: 's' :: 'e' :: r2 => some (JsonVal.bool false, r2)
          | _ => none
        else if c = 'n' then
          match rest with
          | 'u' :: 'l' :: 'l' :: r2 => some (JsonVal.null, r2)
          | _ => none
        else if c = '-' || c = 'N' || c = 'I' || isDigitC c then
          parseNumTok (c :: rest)
        else none
    | PMode.objRest acc =>
      match skipWs cs with
      | '"' :: rest =>
        match parseStrChars [] rest with
        | some (k, r2) =>
          match skipWs r2 with
          | ':' :: r3 =>
            match parseP fuel PMode.value r3 with
            | some (v, r4) =>
              match skipWs r4 with
              | ',' :: r5 => parseP fuel (PMode.objRest (dinsert acc (String.mk k) v)) r5
              | '}' :: r5 => some (JsonVal.obj (dinsert acc (String.mk k) v), r5)
              | _ => none
            | none => none
          | _ => none
        | none => none
      | _ => none
    | PMode.arrRest acc =>
      match parseP fuel PMode.value cs with
      | some (v, r2) =>
        match skipWs r2 with
        | ',' :: r3 => parseP fuel (PMode.arrRest (acc ++ [v])) r3
        | ']' :: r3 => some (JsonVal.arr (acc ++ [v]), r3)
        | _ => none
      | none => none

/-- Python `json.loads` on a character list: parse one value and require
only whitespace after it. -/
def parseJsonL (cs : List Char) : Option JsonVal :=
  match parseP (2 * cs.length + 2) PMode.value cs with
  | some (v, rest) => if (skipWs rest).isEmpty then some v else none
  | none => none

/-- Python `json.loads` on a string. -/
def parseJson (s : String) : Option JsonVal := parseJsonL s.data

/-- Outcome of the JSON-extraction block of
`BookawardScraper.get_award_info_from_perplexity` (lines 124-144): the
three diagnostic branches and the success payload. -/
inductive ExtractResult where
  | noJsonFound
  | malformedJson
  | missingEnvelope
  | ok (payload : JsonVal)

/-- Python `content.find('{')` as an optional index. -/
def firstBraceIdx (cs : List Char) : Option Nat := cs.findIdx? (fun c => c = '{')

/-- Python `content.rfind('}')` as an optional index. -/
def lastBraceIdx (cs : List Char) : Option Nat :=
  match cs.reverse.findIdx? (fun c => c = '}') with
  | some i => some (cs.length - 1 - i)
  | none => none

/-- The extractor: locate the first `{` and the last `}`; when Python's
`json_start >= 0 and json_end > json_start` test fails, no JSON was found;
otherwise parse the enclosed substring and look for the `bookAward`
envelope.  A successful parse of a substring that starts with `{` is
always an object, so the non-object fallback (Python would run `in` on a
non-dict) is unreachable. -/
def extract (content : String) : ExtractResult :=
  let cs := content.data
  match firstBraceIdx cs, lastBraceIdx cs with
  | some s, some e =>
    if s < e + 1 then
      let sub := (cs.drop s).take (e + 1 - s)
      match parseJsonL sub with
      | none => ExtractResult.malformedJson
      | some (JsonVal.obj fields) =>
        match dgetOpt fields "bookAward" with
        | some payload => ExtractResult.ok payload
        | none => ExtractResult.missingEnvelope
      | some _ => ExtractResult.missingEnvelope
    else ExtractResult.noJsonFound
  | _, _ => ExtractResult.noJsonFound

/-- Environment outcome of one call to the Perplexity endpoint, covering
exactly the branches of `get_award_info_from_perplexity`: a timeout, any
other request exception, a non-200 status, a 200 reply without choices,
or a 200 reply whose first choice carries `content`. -/
inductive ApiOutcome where
  | timeout
  | requestError
  | httpError (code : Nat)
  | noChoices
  | content (s : String)

/-- Python `BookawardScraper.get_award_info_from_perplexity`: with no API key or
on any request/extraction failure the award is returned unchanged; only
when the reply's content yields a `bookAward` payload is `enriched_data`
assigned (wholesale) on the award. -/
def get_award_info_from_perplexity (apiKey : Option String) (outcome : ApiOutcome)
    (award : Dict) : Dict :=
  match apiKey with
  | none => award
  | some _ =>
    match outcome with
    | ApiOutcome.content s =>
      match extract s with
      | ExtractResult.ok payload => dinsert award "enriched_data" payload
      | _ => award
    | _ => award

/-- Per-record event of the enrichment loop: a `KeyboardInterrupt`
delivered during the record's API call, or a completed call with the given
outcome followed by a checkpoint write that succeeds or raises. -/
inductive RecEvent where
  | interrupt
  | api (o : ApiOutcome) (writeOk : Bool)

/-- How the loop of `enrich_awards_with_perplexity` ends: normally, by
re-raising `KeyboardInterrupt`, or by the uncaught `KeyError` of the
progress `print` when a record lacks `award_name`. -/
inductive RunExit where
  | normal
  | interrupted
  | keyError

/-- State left by the enrichment loop: accumulated `enriched_awards`, the
content of `bookawards_result_partial.json`, and how the loop ended. -/
structure LoopResult where
  acc : List Dict
  checkpoint : Option (List Dict)
  ending : RunExit

/-- Lines 170-188 of `BookawardScraper.py`: for each record, print
progress (raising `KeyError` on a missing `award_name`), run the API call
(a `KeyboardInterrupt` there triggers the handler: flush `enriched_awards`
to the checkpoint only when non-empty, then re-raise), append the result,
and write the checkpoint; a failing write is caught by the generic
`except Exception` and the loop continues with the next record. -/
def enrichLoop (apiKey : Option String) (events : Nat → RecEvent) :
    Nat → List Dict → List Dict → Option (List Dict) → LoopResult
  | _, [], acc, cp => ⟨acc, cp, RunExit.normal⟩
  | i, award :: rest, acc, cp =>
    if (dgetOpt award "award_name").isNone then ⟨acc, cp, RunExit.keyError⟩
    else
      match events i with
      | RecEvent.interrupt =>
        ⟨acc, if acc.isEmpty then cp else some acc, RunExit.interrupted⟩
      | RecEvent.api o writeOk =>
        let enriched := get_award_info_from_perplexity apiKey o award
        let acc1 := acc ++ [enriched]
        if writeOk then enrichLoop apiKey events (i + 1) rest acc1 (some acc1)
        else enrichLoop apiKey events (i + 1) rest acc1 cp

/-- Python `l[:n]` for an arbitrary integer bound. -/
def pySliceTo {α : Type} (l : List α) (n : Int) : List α :=
  if 0 ≤ n then l.take n.toNat else l.take (l.length - (-n).toNat)

/-- Python `l[n:]` for an arbitrary integer bound. -/
def pySliceFrom {α : Type} (l : List α) (n : Int) : List α :=
  if 0 ≤ n then l.drop n.toNat else l.drop (l.length - (-n).toNat)

/-- Python `self.awards[:limit] if limit else self.awards`: the records the loop
visits.  `limit` is truthy exactly when it is set and non-zero. -/
def workingSubset {α : Type} (awards : List α) (limit : Option Int) : List α :=
  match limit with
  | none => awards
  | some n => if n = 0 then awards else pySliceTo awards n

/-- The skip sentinel attached to records beyond the limit. -/
def limitSentinel : JsonVal :=
  JsonVal.obj [("note", JsonVal.str "Data not enriched due to processing limit")]

/-- Result of a full `enrich_awards_with_perplexity` call: the returned
list (`none` when the call raised), the final checkpoint content, and the
way it ended. -/
structure RunResult where
  retVal : Option (List Dict)
  checkpoint : Option (List Dict)
  ending : RunExit

/-- Lines 190-195: when processing was limited (`if limit and limit <
len(self.awards)`), the remaining awards, each as a copy carrying the skip
sentinel. -/
def tailRecords (awards : List Dict) (limit : Option Int) : List Dict :=
  match limit with
  | none => []
  | some n =>
    if n ≠ 0 ∧ n < (awards.length : Int) then
      (pySliceFrom awards n).map (fun a => dinsert a "enriched_data" limitSentinel)
    else []

/-- Python `BookawardScraper.enrich_awards_with_perplexity` (lines 156-197):
slice the working subset, run the loop, and on normal completion append
the skipped tail with the sentinel on a copy of each remaining award.
`cp0` is whatever the checkpoint file held before the run. -/
def enrich_awards_with_perplexity (apiKey : Option String) (events : Nat → RecEvent)
    (awards : List Dict) (limit : Option Int) (cp0 : Option (List Dict)) : RunResult :=
  let r := enrichLoop apiKey events 0 (workingSubset awards limit) [] cp0
  match r.ending with
  | RunExit.normal => ⟨some (r.acc ++ tailRecords awards limit), r.checkpoint, RunExit.normal⟩
  | e => ⟨none, r.checkpoint, e⟩

/-- A heap of award dicts: Python object references become indices, so
that `award.copy()` (a fresh shallow copy) and in-place mutation
(`award['enriched_data'] = ...`) are modelled faithfully for the claims
about non-mutation of the input list. -/
abbrev Store := List Dict

/-- Dereference an award. -/
def storeGet (st : Store) (a : Nat) : Dict := st.getD a []

/-- Python `award.copy()`: allocate a shallow copy at a fresh address. -/
def copyAlloc (st : Store) (a : Nat) : Store × Nat := (st ++ [storeGet st a], st.length)

/-- The function `get_award_info_from_perplexity` acting on the heap: on full success
it mutates its argument in place (`award['enriched_data'] = book_award`),
otherwise it leaves the heap untouched. -/
def getAwardInfoSt (apiKey : Option String) (o : ApiOutcome) (st : Store) (a : Nat) :
    Store :=
  match apiKey with
  | none => st
  | some _ =>
    match o with
    | ApiOutcome.content s =>
      match extract s with
      | ExtractResult.ok payload => st.set a (dinsert (storeGet st a) "enriched_data" payload)
      | _ => st
    | _ => st

/-- The enrichment loop on the heap: each visited record is passed to the
API call as `award.copy()`, and the copy's address is what is appended to
`enriched_awards`.  Checkpoint writes serialize the heap and do not
mutate it, so they do not appear here. -/
def enrichLoopSt (apiKey : Option String) (events : Nat → RecEvent) :
    Nat → List Nat → Store → List Nat → Store × List Nat × RunExit
  | _, [], st, out => (st, out, RunExit.normal)
  | i, a :: rest, st, out =>
    if (dgetOpt (storeGet st a) "award_name").isNone then (st, out, RunExit.keyError)
    else
      match events i with
      | RecEvent.interrupt => (st, out, RunExit.interrupted)
      | RecEvent.api o _ =>
        let p := copyAlloc st a
        let st2 := getAwardInfoSt apiKey o p.1 p.2
        enrichLoopSt apiKey events (i + 1) rest st2 (out ++ [p.2])

/-- Lines 190-195 on the heap: `award_copy = award.copy();
award_copy['enriched_data'] = sentinel`. -/
def tailSt : List Nat → Store → List Nat → Store × List Nat
  | [], st, out => (st, out)
  | a :: rest, st, out =>
    let p := copyAlloc st a
    let st2 := p.1.set p.2 (dinsert (storeGet p.1 p.2) "enriched_data" limitSentinel)
    tailSt rest st2 (out ++ [p.2])

/-- Full `enrich_awards_with_perplexity` on the heap: `awards` is
`self.awards` as a list of references into `st`. -/
def enrichSt (apiKey : Option String) (events : Nat → RecEvent) (awards : List Nat)
    (limit : Option Int) (st : Store) : Store × List Nat × RunExit :=
  let r := enrichLoopSt apiKey events 0 (workingSubset awards limit) st []
  match r.2.2 with
  | RunExit.normal =>
    match limit with
    | none => r
    | some n =>
      if n ≠ 0 ∧ n < (awards.length : Int) then
        let t := tailSt (pySliceFrom awards n) r.1 r.2.1
        (t.1, t.2, RunExit.normal)
      else r
  | _ => r

/-- The stripped `award_name` of a detailed award, when it exists. -/
def stripName (award : Dict) : Option String := (awardNameStr award).map pyStrip

/-- Modelled from the spec wording of the merge description (for the
refinement statement of the merge-algorithm claim): the record the
finished mapping associates to a normalized key `k` — the last detailed
entry whose stripped name is `k` (last-detailed-wins), else a fresh
default record when some name strips to a non-empty `k`. -/
def lastDetailedHit (awards : List Dict) (k : String) : Option Dict :=
  match awards with
  | [] => none
  | a :: rest =>
    match lastDetailedHit rest k with
    | some v => some v
    | none => if stripName a = some k then some a else none

/-- Modelled from the spec wording (refinement reference for the merge
claims): the value at normalized key `k` after the whole merge. -/
def mergeSpecLookup (detailed : List Dict) (names : List String) (k : String) :
    Option Dict :=
  match lastDetailedHit detailed k with
  | some v => some v
  | none =>
    if k ≠ "" ∧ k ∈ names.map pyStrip then some (convert_name_to_award_dict k)
    else none

/-- What one loop iteration appends for a completed (non-interrupt)
event. -/
def enrichOne (apiKey : Option String) (ev : RecEvent) (d : Dict) : Dict :=
  match ev with
  | RecEvent.interrupt => d
  | RecEvent.api o _ => get_award_info_from_perplexity apiKey o d

/-- The records the loop accumulates for a run starting at event index
`i`, one per visited record in order. -/
def processedRecords (apiKey : Option String) (events : Nat → RecEvent) :
    Nat → List Dict → List Dict
  | _, [] => []
  | i, d :: rest => enrichOne apiKey (events i) d :: processedRecords apiKey events (i + 1) rest

/-- Every entry of the merged map sits under the stripped form of its own
string `award_name`. -/
def InvStrip (m : AwardMap) : Prop :=
  ∀ p ∈ m, ∃ s, awardNameStr p.2 = some s ∧ pyStrip s = p.1

theorem head_dropWhile_false (p : Char → Bool) (x : List Char) :
    ∀ c ∈ (x.dropWhile p).head?, p c = false := by
  intro c hc
  have h := List.head?_dropWhile_not p x
  cases hd : (x.dropWhile p).head? with
  | none => simp [hd] at hc
  | some d =>
    rw [hd] at h hc
    cases hc
    simpa using h

theorem dropWhile_eq_self_of_head (p : Char → Bool) (x : List Char)
    (h : ∀ c ∈ x.head?, p c = false) : x.dropWhile p = x := by
  cases x with
  | nil => rfl
  | cons a t => simp [List.dropWhile_cons, h a rfl]

theorem getLast_dropWhile (p : Char → Bool) (x : List Char)
    (h : x.dropWhile p ≠ []) : (x.dropWhile p).getLast? = x.getLast? := by
  conv_rhs => rw [← List.takeWhile_append_dropWhile (p := p) (l := x)]
  rw [List.getLast?_append_of_ne_nil _ h]

theorem trimChars_head (l : List Char) :
    ∀ c ∈ (trimChars l).head?, isPySpace c = false :=
  head_dropWhile_false isPySpace _

theorem trimChars_getLast (l : List Char) :
    ∀ c ∈ (trimChars l).getLast?, isPySpace c = false := by
  intro c hc
  unfold trimChars at hc
  set w : List Char := (l.reverse.dropWhile isPySpace).reverse with hw
  have hne : w.dropWhile isPySpace ≠ [] := by
    intro h0
    rw [h0] at hc
    simp at hc
  rw [getLast_dropWhile isPySpace w hne] at hc
  rw [hw, List.getLast?_reverse] at hc
  exact head_dropWhile_false isPySpace l.reverse c hc

theorem trimChars_idem (l : List Char) : trimChars (trimChars l) = trimChars l := by
  have hhead : ∀ c ∈ (trimChars l).head?, isPySpace c = false := trimChars_head l
  have hlast : ∀ c ∈ (trimChars l).getLast?, isPySpace c = false := trimChars_getLast l
  show ((((trimChars l).reverse.dropWhile isPySpace).reverse).dropWhile isPySpace) = trimChars l
  have h1 : (trimChars l).reverse.dropWhile isPySpace = (trimChars l).reverse := by
    apply dropWhile_eq_self_of_head
    intro c hc
    rw [List.head?_reverse] at hc
    exact hlast c hc
  rw [h1, List.reverse_reverse]
  exact dropWhile_eq_self_of_head _ _ hhead

theorem pyStrip_idem (s : String) : pyStrip (pyStrip s) = pyStrip s := by
  show String.mk (trimChars (trimChars s.data)) = String.mk (trimChars s.data)
  rw [trimChars_idem]

theorem dgetOpt_dinsert_same (d : Dict) (k : String) (v : JsonVal) :
    dgetOpt (dinsert d k v) k = some v := by
  induction d with
  | nil => simp [dinsert, dgetOpt]
  | cons hd rest ih =>
    obtain ⟨k', v'⟩ := hd
    by_cases h : k' = k
    · simp [dinsert, dgetOpt, h]
    · simp [dinsert, dgetOpt, h, ih]

theorem dgetOpt_dinsert_other (d : Dict) (k k0 : String) (v : JsonVal)
    (hne : k0 ≠ k) : dgetOpt (dinsert d k v) k0 = dgetOpt d k0 := by
  have hne2 : ¬ k = k0 := fun h => hne h.symm
  induction d with
  | nil => simp [dinsert, dgetOpt, hne2]
  | cons hd rest ih =>
    obtain ⟨k', v'⟩ := hd
    by_cases h : k' = k
    · subst h
      simp [dinsert, dgetOpt, hne2]
    · simp [dinsert, dgetOpt, h, ih]

theorem strLtB_irrefl (a : List Char) : strLtB a a = false := by
  induction a with
  | nil => rfl
  | cons c t ih => simp [strLtB, ih]

theorem strLtB_trans {a b c : List Char} (h1 : strLtB a b = true)
    (h2 : strLtB b c = true) : strLtB a c = true := by
  induction a generalizing b c with
  | nil =>
    cases c with
    | nil =>
      cases b with
      | nil => exact h1
      | cons y bs => simp [strLtB] at h2
    | cons z cs => rfl
  | cons x as ih =>
    cases b with
    | nil => simp [strLtB] at h1
    | cons y bs =>
      cases c with
      | nil => simp [strLtB] at h2
      | cons z cs =>
        simp only [strLtB] at h1 h2 ⊢
        rcases Nat.lt_trichotomy x.toNat y.toNat with hxy | hxy | hxy
        · rcases Nat.lt_trichotomy y.toNat z.toNat with hyz | hyz | hyz
          · simp [Nat.lt_trans hxy hyz]
          · rw [← hyz]
            simp [hxy]
          · rw [if_neg (Nat.lt_asymm hyz), if_pos hyz] at h2
            exact absurd h2 (by simp)
        · rw [hxy] at h1 ⊢
          rw [if_neg (Nat.lt_irrefl _), if_neg (Nat.lt_irrefl _)] at h1
          rcases Nat.lt_trichotomy y.toNat z.toNat with hyz | hyz | hyz
          · simp [hyz]
          · rw [hyz] at h2 ⊢
            rw [if_neg (Nat.lt_irrefl _), if_neg (Nat.lt_irrefl _)] at h2 ⊢
            exact ih h1 h2
          · rw [if_neg (Nat.lt_asymm hyz), if_pos hyz] at h2
            exact absurd h2 (by simp)
        · rw [if_neg (Nat.lt_asymm hxy), if_pos hxy] at h1
          exact absurd h1 (by simp)

theorem strLtB_eq_of_not_lt {a b : List Char} (h1 : strLtB a b = false)
    (h2 : strLtB b a = false) : a = b := by
  induction a generalizing b with
  | nil =>
    cases b with
    | nil => rfl
    | cons y bs => simp [strLtB] at h1
  | cons x as ih =>
    cases b with
    | nil => simp [strLtB] at h2
    | cons y bs =>
      simp only [strLtB] at h1 h2
      rcases Nat.lt_trichotomy x.toNat y.toNat with hxy | hxy | hxy
      · rw [if_pos hxy] at h1
        exact absurd h1 (by simp)
      · have hx : x = y := Char.ext (UInt32.ext hxy)
        subst hx
        rw [if_neg (Nat.lt_irrefl _), if_neg (Nat.lt_irrefl _)] at h1 h2
        rw [ih h1 h2]
      · rw [if_pos hxy] at h2
        exact absurd h2 (by simp)

theorem pyStrLe_total (a b : String) : pyStrLe a b = true ∨ pyStrLe b a = true := by
  unfold pyStrLe pyStrLt
  by_cases h1 : strLtB b.data a.data = true
  · by_cases h2 : strLtB a.data b.data = true
    · have := strLtB_trans h1 h2
      rw [strLtB_irrefl] at this
      exact absurd this (by simp)
    · right
      simp [Bool.not_eq_true] at h2
      simp [h2]
  · left
    simp [Bool.not_eq_true] at h1
    simp [h1]

theorem pyStrLe_trans {a b c : String} (h1 : pyStrLe a b = true)
    (h2 : pyStrLe b c = true) : pyStrLe a c = true := by
  unfold pyStrLe pyStrLt at h1 h2 ⊢
  simp only [Bool.not_eq_true'] at h1 h2 ⊢
  by_cases hca : strLtB c.data a.data = true
  · by_cases hbc : strLtB b.data c.data = true
    · have := strLtB_trans hbc hca
      rw [this] at h1
      exact absurd h1 (by simp)
    · simp [Bool.not_eq_true] at hbc
      have heq := strLtB_eq_of_not_lt h2 hbc
      have hb : b = c := by
        cases b
        cases c
        cases heq
        rfl
      subst hb
      rw [hca] at h1
      exact absurd h1 (by simp)
  · simpa [Bool.not_eq_true] using hca

theorem amapLookup_amapInsert_same (m : AwardMap) (k : String) (v : Dict) :
    amapLookup (amapInsert m k v) k = some v := by
  induction m with
  | nil => simp [amapInsert, amapLookup]
  | cons hd rest ih =>
    obtain ⟨k', v'⟩ := hd
    by_cases h : k' = k
    · simp [amapInsert, amapLookup, h]
    · simp [amapInsert, amapLookup, h, ih]

theorem amapLookup_amapInsert_other (m : AwardMap) (k k0 : String) (v : Dict)
    (hne : ¬ k = k0) : amapLookup (amapInsert m k v) k0 = amapLookup m k0 := by
  induction m with
  | nil => simp [amapInsert, amapLookup, hne]
  | cons hd rest ih =>
    obtain ⟨k', v'⟩ := hd
    by_cases h : k' = k
    · subst h
      simp [amapInsert, amapLookup, hne]
    · simp [amapInsert, amapLookup, h, ih]

theorem amapInsert_keys_mem (m : AwardMap) (k : String) (v : Dict)
    (h : (amapLookup m k).isSome) :
    (amapInsert m k v).map Prod.fst = m.map Prod.fst := by
  induction m with
  | nil => simp [amapLookup] at h
  | cons hd rest ih =>
    obtain ⟨k', v'⟩ := hd
    by_cases hk : k' = k
    · simp [amapInsert, hk]
    · simp only [amapLookup, hk, if_false] at h
      simp [amapInsert, hk, ih h]

theorem amapInsert_keys_fresh (m : AwardMap) (k : String) (v : Dict)
    (h : amapLookup m k = none) :
    (amapInsert m k v).map Prod.fst = m.map Prod.fst ++ [k] := by
  induction m with
  | nil => simp [amapInsert]
  | cons hd rest ih =>
    obtain ⟨k', v'⟩ := hd
    by_cases hk : k' = k
    · simp [amapLookup, hk] at h
    · simp only [amapLookup, hk, if_false] at h
      simp [amapInsert, hk, ih h]

theorem amapInsert_mem (m : AwardMap) (k : String) (v : Dict) (p : String × Dict)
    (h : p ∈ amapInsert m k v) : p = (k, v) ∨ p ∈ m := by
  induction m with
  | nil => simpa [amapInsert] using h
  | cons hd rest ih =>
    obtain ⟨k', v'⟩ := hd
    by_cases hk : k' = k
    · rw [show amapInsert ((k', v') :: rest) k v = (k, v) :: rest from by
        simp [amapInsert, hk]] at h
      rcases List.mem_cons.mp h with h1 | h1
      · exact Or.inl h1
      · exact Or.inr (List.mem_cons_of_mem _ h1)
    · rw [show amapInsert ((k', v') :: rest) k v = (k', v') :: amapInsert rest k v from by
        simp [amapInsert, hk]] at h
      rcases List.mem_cons.mp h with h1 | h1
      · exact Or.inr (by simp [h1])
      · rcases ih h1 with h2 | h2
        · exact Or.inl h2
        · exact Or.inr (List.mem_cons_of_mem _ h2)

theorem amapLookup_mem (m : AwardMap) (k : String) (v : Dict)
    (h : amapLookup m k = some v) : (k, v) ∈ m := by
  induction m with
  | nil => simp [amapLookup] at h
  | cons hd rest ih =>
    obtain ⟨k', v'⟩ := hd
    by_cases hk : k' = k
    · subst hk
      simp only [amapLookup, if_pos rfl] at h
      cases h
      simp
    · simp only [amapLookup, hk, if_false] at h
      exact List.mem_cons_of_mem _ (ih h)

theorem amapLookup_of_mem (m : AwardMap) (k : String) (v : Dict)
    (hnd : (m.map Prod.fst).Nodup) (h : (k, v) ∈ m) : amapLookup m k = some v := by
  induction m with
  | nil => simp at h
  | cons hd rest ih =>
    obtain ⟨k', v'⟩ := hd
    simp only [List.map_cons] at hnd
    have hnd2 := List.nodup_cons.mp hnd
    rcases List.mem_cons.mp h with h1 | h1
    · cases h1
      simp [amapLookup]
    · have hk : ¬ k' = k := by
        intro he
        subst he
        exact hnd2.1 (List.mem_map_of_mem Prod.fst h1)
      simp only [amapLookup, hk, if_false]
      exact ih hnd2.2 h1

theorem awardNameStr_convert (name : String) :
    awardNameStr (convert_name_to_award_dict name) = some (pyStrip name) := rfl

theorem sortKey_of_awardNameStr (d : Dict) (s : String)
    (h : awardNameStr d = some s) : sortKey d = s := by
  unfold awardNameStr at h
  unfold sortKey
  cases hd : dgetOpt d "award_name" with
  | none => rw [hd] at h; cases h
  | some v =>
    rw [hd] at h
    cases v with
    | str t => cases h; rfl
    | null => cases h
    | bool b => cases h
    | num n => cases h
    | fnum l => cases h
    | arr xs => cases h
    | obj fs => cases h

theorem addDetailed_lookup (awards : List Dict) (m m' : AwardMap)
    (h : addDetailed awards m = some m') (k : String) :
    amapLookup m' k =
      match lastDetailedHit awards k with
      | some v => some v
      | none => amapLookup m k := by
  induction awards generalizing m with
  | nil =>
    simp only [addDetailed] at h
    cases h
    simp [lastDetailedHit]
  | cons award rest ih =>
    simp only [addDetailed] at h
    cases hs : awardNameStr award with
    | none => rw [hs] at h; cases h
    | some s =>
      rw [hs] at h
      have ihh := ih (amapInsert m (pyStrip s) award) h
      simp only [lastDetailedHit]
      cases hldh : lastDetailedHit rest k with
      | some v =>
        rw [hldh] at ihh
        simpa using ihh
      | none =>
        rw [hldh] at ihh
        simp only [ihh]
        by_cases hk : pyStrip s = k
        · subst hk
          rw [amapLookup_amapInsert_same]
          have : stripName award = some (pyStrip s) := by
            unfold stripName
            rw [hs]
            rfl
          simp [this]
        · rw [amapLookup_amapInsert_other _ _ _ _ hk]
          have : stripName award ≠ some k := by
            unfold stripName
            rw [hs]
            simpa using hk
          simp [this]

theorem addDetailed_none (awards : List Dict) (m : AwardMap) (d : Dict)
    (hd : d ∈ awards) (hn : awardNameStr d = none) :
    addDetailed awards m = none := by
  induction awards generalizing m with
  | nil => simp at hd
  | cons award rest ih =>
    rcases List.mem_cons.mp hd with h1 | h1
    · subst h1
      simp [addDetailed, hn]
    · simp only [addDetailed]
      cases hs : awardNameStr award with
      | none => rfl
      | some s => exact ih _ h1

theorem addNames_lookup (names : List String) (m : AwardMap) (k : String) :
    amapLookup (addNames names m) k =
      match amapLookup m k with
      | some v => some v
      | none =>
        if k ≠ "" ∧ k ∈ names.map pyStrip then some (convert_name_to_award_dict k)
        else none := by
  induction names generalizing m with
  | nil =>
    simp only [addNames, List.map_nil]
    cases amapLookup m k <;> simp
  | cons n rest ih =>
    simp only [addNames]
    by_cases h0 : pyStrip n = ""
    · rw [if_pos h0, ih]
      cases amapLookup m k with
      | some v => rfl
      | none =>
        simp only [List.map_cons, h0]
        by_cases hk : k = ""
        · simp [hk]
        · simp only [ne_eq, hk, not_false_iff, true_and]
          have : (k ∈ "" :: rest.map pyStrip) ↔ (k ∈ rest.map pyStrip) := by
            constructor
            · intro hm
              rcases List.mem_cons.mp hm with h2 | h2
              · exact absurd h2 hk
              · exact h2
            · exact fun hm => List.mem_cons_of_mem _ hm
          simp only [this]
    · rw [if_neg h0]
      by_cases h1 : (amapLookup m (pyStrip n)).isSome
      · rw [if_pos h1, ih]
        cases hm : amapLookup m k with
        | some v => rfl
        | none =>
          simp only [List.map_cons]
          by_cases hk : k = ""
          · simp [hk]
          · have hkn : k ≠ pyStrip n := by
              intro he
              rw [← he, hm] at h1
              simp at h1
            have : (k ∈ pyStrip n :: rest.map pyStrip) ↔ (k ∈ rest.map pyStrip) := by
              constructor
              · intro hmem
                rcases List.mem_cons.mp hmem with h2 | h2
                · exact absurd h2 hkn
                · exact h2
              · exact fun hmem => List.mem_cons_of_mem _ hmem
            simp only [this]
      · rw [if_neg h1, ih]
        by_cases hk : k = pyStrip n
        · subst hk
          rw [amapLookup_amapInsert_same]
          rw [Option.not_isSome_iff_eq_none] at h1
          rw [h1]
          simp [h0]
        · rw [amapLookup_amapInsert_other _ _ _ _ (fun he => hk he.symm)]
          cases hm : amapLookup m k with
          | some v => rfl
          | none =>
            simp only [List.map_cons]
            by_cases hke : k = ""
            · simp [hke]
            · have : (k ∈ pyStrip n :: rest.map pyStrip) ↔ (k ∈ rest.map pyStrip) := by
                constructor
                · intro hmem
                  rcases List.mem_cons.mp hmem with h2 | h2
                  · exact absurd h2 hk
                  · exact h2
                · exact fun hmem => List.mem_cons_of_mem _ hmem
              simp only [this]

theorem amapLookup_isSome_of_mem_keys (m : AwardMap) (k : String)
    (h : k ∈ m.map Prod.fst) : (amapLookup m k).isSome := by
  induction m with
  | nil => simp at h
  | cons hd rest ih =>
    obtain ⟨k', v'⟩ := hd
    by_cases hk : k' = k
    · simp [amapLookup, hk]
    · simp only [List.map_cons] at h
      rcases List.mem_cons.mp h with h1 | h1
      · exact absurd h1.symm hk
      · simp only [amapLookup, hk, if_false]
        exact ih h1

theorem amapInsert_nodup (m : AwardMap) (k : String) (v : Dict)
    (hnd : (m.map Prod.fst).Nodup) : ((amapInsert m k v).map Prod.fst).Nodup := by
  cases h : amapLookup m k with
  | some w =>
    rw [amapInsert_keys_mem m k v (by simp [h])]
    exact hnd
  | none =>
    rw [amapInsert_keys_fresh m k v h]
    have hk : k ∉ m.map Prod.fst := by
      intro hmem
      have := amapLookup_isSome_of_mem_keys m k hmem
      rw [h] at this
      simp at this
    simp [List.nodup_append, hnd, hk]

theorem addDetailed_nodup (awards : List Dict) (m m' : AwardMap)
    (hnd : (m.map Prod.fst).Nodup) (h : addDetailed awards m = some m') :
    (m'.map Prod.fst).Nodup := by
  induction awards generalizing m with
  | nil =>
    simp only [addDetailed] at h
    cases h
    exact hnd
  | cons award rest ih =>
    simp only [addDetailed] at h
    cases hs : awardNameStr award with
    | none => rw [hs] at h; cases h
    | some s =>
      rw [hs] at h
      exact ih _ (amapInsert_nodup _ _ _ hnd) h

theorem addNames_nodup (names : List String) (m : AwardMap)
    (hnd : (m.map Prod.fst).Nodup) : ((addNames names m).map Prod.fst).Nodup := by
  induction names generalizing m with
  | nil => exact hnd
  | cons n rest ih =>
    simp only [addNames]
    by_cases h0 : pyStrip n = ""
    · rw [if_pos h0]
      exact ih _ hnd
    · rw [if_neg h0]
      by_cases h1 : (amapLookup m (pyStrip n)).isSome
      · rw [if_pos h1]
        exact ih _ hnd
      · rw [if_neg h1]
        exact ih _ (amapInsert_nodup _ _ _ hnd)

theorem addDetailed_inv (awards : List Dict) (m m' : AwardMap)
    (hinv : InvStrip m) (h : addDetailed awards m = some m') : InvStrip m' := by
  induction awards generalizing m with
  | nil =>
    simp only [addDetailed] at h
    cases h
    exact hinv
  | cons award rest ih =>
    simp only [addDetailed] at h
    cases hs : awardNameStr award with
    | none => rw [hs] at h; cases h
    | some s =>
      rw [hs] at h
      refine ih _ ?_ h
      intro p hp
      rcases amapInsert_mem _ _ _ _ hp with h1 | h1
      · subst h1
        exact ⟨s, hs, rfl⟩
      · exact hinv p h1

theorem addNames_inv (names : List String) (m : AwardMap)
    (hinv : InvStrip m) : InvStrip (addNames names m) := by
  induction names generalizing m with
  | nil => exact hinv
  | cons n rest ih =>
    simp only [addNames]
    by_cases h0 : pyStrip n = ""
    · rw [if_pos h0]
      exact ih _ hinv
    · rw [if_neg h0]
      by_cases h1 : (amapLookup m (pyStrip n)).isSome
      · rw [if_pos h1]
        exact ih _ hinv
      · rw [if_neg h1]
        refine ih _ ?_
        intro p hp
        rcases amapInsert_mem _ _ _ _ hp with h2 | h2
        · subst h2
          exact ⟨pyStrip (pyStrip n), by rw [awardNameStr_convert], by
            simp [pyStrip_idem]⟩
        · exact hinv p h2

theorem insertByName_perm (x : Dict) (l : List Dict) :
    (insertByName x l).Perm (x :: l) := by
  induction l with
  | nil => simp [insertByName]
  | cons y ys ih =>
    simp only [insertByName]
    by_cases h : pyStrLe (sortKey x) (sortKey y) = true
    · rw [if_pos h]
    · rw [if_neg h]
      exact (List.Perm.cons y ih).trans (List.Perm.swap x y ys)

theorem sortAwards_perm (l : List Dict) : (sortAwards l).Perm l := by
  induction l with
  | nil => simp [sortAwards]
  | cons x xs ih =>
    simp only [sortAwards]
    exact (insertByName_perm x (sortAwards xs)).trans (List.Perm.cons x ih)

theorem insertByName_sorted (x : Dict) (l : List Dict)
    (hs : l.Pairwise (fun a b => pyStrLe (sortKey a) (sortKey b) = true)) :
    (insertByName x l).Pairwise (fun a b => pyStrLe (sortKey a) (sortKey b) = true) := by
  induction l with
  | nil => simp [insertByName]
  | cons y ys ih =>
    have hy := (List.pairwise_cons.mp hs).1
    have hys := (List.pairwise_cons.mp hs).2
    simp only [insertByName]
    by_cases h : pyStrLe (sortKey x) (sortKey y) = true
    · rw [if_pos h]
      refine List.pairwise_cons.mpr ⟨?_, hs⟩
      intro z hz
      rcases List.mem_cons.mp hz with h1 | h1
      · subst h1
        exact h
      · exact pyStrLe_trans h (hy z h1)
    · rw [if_neg h]
      have hyx : pyStrLe (sortKey y) (sortKey x) = true := by
        rcases pyStrLe_total (sortKey x) (sortKey y) with h1 | h1
        · exact absurd h1 h
        · exact h1
      refine List.pairwise_cons.mpr ⟨?_, ih hys⟩
      intro z hz
      have : z ∈ x :: ys := (insertByName_perm x ys).mem_iff.mp hz
      rcases List.mem_cons.mp this with h1 | h1
      · subst h1
        exact hyx
      · exact hy z h1

theorem sortAwards_sorted (l : List Dict) :
    (sortAwards l).Pairwise (fun a b => pyStrLe (sortKey a) (sortKey b) = true) := by
  induction l with
  | nil => simp [sortAwards]
  | cons x xs ih => exact insertByName_sorted x (sortAwards xs) ih

theorem sortAwards_eq_of_sorted (l : List Dict)
    (hs : l.Pairwise (fun a b => pyStrLe (sortKey a) (sortKey b) = true)) :
    sortAwards l = l := by
  induction l with
  | nil => rfl
  | cons x xs ih =>
    have hx := (List.pairwise_cons.mp hs).1
    have hxs := (List.pairwise_cons.mp hs).2
    simp only [sortAwards, ih hxs]
    cases xs with
    | nil => rfl
    | cons y ys =>
      simp only [insertByName]
      rw [if_pos (hx y (by simp))]

theorem merge_master (detailed : List Dict) (names : List String) (out : List Dict)
    (h : merge_awards detailed names = some out) :
    ∃ mf : AwardMap,
      (∀ k, amapLookup mf k = mergeSpecLookup detailed names k) ∧
      InvStrip mf ∧ ((mf.map Prod.fst).Nodup) ∧ out = sortAwards (mf.map Prod.snd) := by
  unfold merge_awards at h
  cases hd : addDetailed detailed [] with
  | none => rw [hd] at h; cases h
  | some m =>
    rw [hd] at h
    cases h
    refine ⟨addNames names m, ?_, ?_, ?_, rfl⟩
    · intro k
      have h1 := addNames_lookup names m k
      have h2 := addDetailed_lookup detailed [] m hd k
      unfold mergeSpecLookup
      cases hldh : lastDetailedHit detailed k with
      | some v =>
        rw [hldh] at h2
        simp only at h2
        rw [h1, h2]
      | none =>
        rw [hldh] at h2
        simp only [amapLookup] at h2
        rw [h1, h2]
    · exact addNames_inv names m (addDetailed_inv detailed [] m (by intro p hp; simp at hp) hd)
    · exact addNames_nodup names m (addDetailed_nodup detailed [] m (by simp) hd)

theorem strip_sortKey_of_inv (mf : AwardMap) (hinv : InvStrip mf) (p : String × Dict)
    (hp : p ∈ mf) : pyStrip (sortKey p.2) = p.1 := by
  rcases hinv p hp with ⟨s, hs, hstrip⟩
  rw [sortKey_of_awardNameStr p.2 s hs, hstrip]

theorem merge_out_mem (detailed : List Dict) (names : List String) (out : List Dict)
    (h : merge_awards detailed names = some out) (v : Dict) :
    v ∈ out ↔ mergeSpecLookup detailed names (pyStrip (sortKey v)) = some v := by
  rcases merge_master detailed names out h with ⟨mf, hlook, hinv, hnd, hout⟩
  constructor
  · intro hv
    rw [hout] at hv
    have hv2 : v ∈ mf.map Prod.snd := (sortAwards_perm _).mem_iff.mp hv
    rcases List.mem_map.mp hv2 with ⟨p, hp, hpv⟩
    subst hpv
    rw [strip_sortKey_of_inv mf hinv p hp, ← hlook]
    exact amapLookup_of_mem mf p.1 p.2 hnd (by
      cases p
      exact hp)
  · intro hv
    rw [← hlook] at hv
    have hmem := amapLookup_mem mf _ _ hv
    rw [hout]
    exact (sortAwards_perm _).mem_iff.mpr (List.mem_map.mpr ⟨_, hmem, rfl⟩)

theorem merge_out_strip_nodup (detailed : List Dict) (names : List String)
    (out : List Dict) (h : merge_awards detailed names = some out) :
    (out.map (fun r => pyStrip (sortKey r))).Nodup := by
  rcases merge_master detailed names out h with ⟨mf, hlook, hinv, hnd, hout⟩
  have hperm : (out.map (fun r => pyStrip (sortKey r))).Perm
      ((mf.map Prod.snd).map (fun r => pyStrip (sortKey r))) := by
    rw [hout]
    exact (sortAwards_perm _).map _
  have hmapeq : (mf.map Prod.snd).map (fun r => pyStrip (sortKey r)) = mf.map Prod.fst := by
    rw [List.map_map]
    apply List.map_congr_left
    intro p hp
    exact strip_sortKey_of_inv mf hinv p hp
  rw [hmapeq] at hperm
  exact hperm.nodup_iff.mpr hnd

theorem amapLookup_none_of_not_mem (m : AwardMap) (k : String)
    (h : k ∉ m.map Prod.fst) : amapLookup m k = none := by
  cases hl : amapLookup m k with
  | none => rfl
  | some v =>
    have := amapLookup_mem m k v hl
    exact absurd (List.mem_map_of_mem Prod.fst this) h

theorem amapInsert_append_of_fresh (m : AwardMap) (k : String) (v : Dict)
    (h : amapLookup m k = none) : amapInsert m k v = m ++ [(k, v)] := by
  induction m with
  | nil => rfl
  | cons hd rest ih =>
    obtain ⟨k', v'⟩ := hd
    by_cases hk : k' = k
    · simp [amapLookup, hk] at h
    · simp only [amapLookup, hk, if_false] at h
      simp [amapInsert, hk, ih h]

theorem addDetailed_app (l : List Dict) (m : AwardMap)
    (hname : ∀ v ∈ l, ∃ s, awardNameStr v = some s)
    (hfresh : ∀ v ∈ l, pyStrip (sortKey v) ∉ m.map Prod.fst)
    (hnodupl : (l.map fun v => pyStrip (sortKey v)).Nodup) :
    addDetailed l m = some (m ++ l.map fun v => (pyStrip (sortKey v), v)) := by
  induction l generalizing m with
  | nil => simp [addDetailed]
  | cons v rest ih =>
    rcases hname v (by simp) with ⟨s, hs⟩
    have hkey : sortKey v = s := sortKey_of_awardNameStr v s hs
    simp only [addDetailed, hs]
    have hfv : pyStrip (sortKey v) ∉ m.map Prod.fst := hfresh v (by simp)
    have hins : amapInsert m (pyStrip s) v = m ++ [(pyStrip s, v)] :=
      amapInsert_append_of_fresh m (pyStrip s) v
        (amapLookup_none_of_not_mem m _ (by rw [← hkey]; exact hfv))
    rw [hins]
    have hnd2 : (pyStrip (sortKey v) ∉ rest.map fun w => pyStrip (sortKey w)) ∧
        (rest.map fun w => pyStrip (sortKey w)).Nodup := by
      have hx := hnodupl
      simp only [List.map_cons] at hx
      exact List.nodup_cons.mp hx
    have ih2 := ih (m ++ [(pyStrip s, v)])
      (fun w hw => hname w (List.mem_cons_of_mem _ hw))
      (by
        intro w hw
        simp only [List.map_append, List.map_cons, List.map_nil]
        rw [List.mem_append]
        rintro (h1 | h1)
        · exact hfresh w (List.mem_cons_of_mem _ hw) h1
        · simp only [List.mem_singleton] at h1
          have : pyStrip (sortKey w) ∈ rest.map fun v => pyStrip (sortKey v) :=
            List.mem_map_of_mem _ hw
          rw [h1, ← hkey] at this
          exact hnd2.1 this)
      hnd2.2
    rw [ih2]
    simp [hkey]

/-- C1: the merge key is the award name with surrounding whitespace
stripped, with no case folding, so the claimed case-insensitive example
collapsing `" Foo "` and `"foo"` into one record is false: that merge
returns two records. -/
theorem merge_dedup_case_counterexample :
    ¬ ((merge_awards [[("award_name", JsonVal.str " Foo ")]] ["foo"]).map List.length
        = some 1) := by
  intro h
  rw [show (merge_awards [[("award_name", JsonVal.str " Foo ")]] ["foo"]).map List.length
      = some 2 from rfl] at h
  exact absurd (Option.some.inj h) (by decide)

/-- C1 (amended): merge deduplication is whitespace-trimmed but
case-sensitive: entries whose `award_name` agree after stripping map to
the same key, and the merged output never contains two records whose
names are equal after stripping surrounding whitespace — names differing
only in letter case stay distinct. -/
theorem merge_dedup_trimmed (detailed : List Dict) (names : List String)
    (out : List Dict) (h : merge_awards detailed names = some out) :
    (out.map fun r => pyStrip (sortKey r)).Nodup :=
  merge_out_strip_nodup detailed names out h

/-- C1 witness: the amended dedup theorem at the claim's own example,
which produces two records with distinct stripped names. -/
theorem merge_dedup_trimmed_witness :
    (([[("award_name", JsonVal.str " Foo ")],
       [("award_name", JsonVal.str "foo"), ("registration_url", JsonVal.str ""),
        ("categories", JsonVal.arr []), ("organization", JsonVal.str "")]] :
      List Dict).map fun r => pyStrip (sortKey r)).Nodup :=
  merge_dedup_trimmed [[("award_name", JsonVal.str " Foo ")]] ["foo"] _ rfl

/-- C9: a detailed entry without the `award_name` key makes the whole
merge call fail (the Python `KeyError` propagates), rather than being
skipped. -/
theorem merge_missing_name_fatal (detailed : List Dict) (names : List String)
    (d : Dict) (hd : d ∈ detailed) (hmiss : dgetOpt d "award_name" = none) :
    merge_awards detailed names = none := by
  have hn : awardNameStr d = none := by
    unfold awardNameStr
    rw [hmiss]
  unfold merge_awards
  rw [addDetailed_none detailed [] d hd hn]

/-- C9 witness: a concrete two-entry detailed list whose first entry lacks
`award_name` makes the merge fail as a whole. -/
theorem merge_missing_name_fatal_witness :
    (([("categories", JsonVal.arr [])] : Dict) ∈
      [[("categories", JsonVal.arr [])], [("award_name", JsonVal.str "A")]]) ∧
    dgetOpt [("categories", JsonVal.arr [])] "award_name" = none ∧
    merge_awards [[("categories", JsonVal.arr [])], [("award_name", JsonVal.str "A")]]
      ["x"] = none :=
  ⟨List.Mem.head _, rfl,
    merge_missing_name_fatal _ ["x"] _ (List.Mem.head _) rfl⟩

/-- C6: the merge algorithm — the output is ascending in `award_name`
(ordinal string order), it carries at most one record per normalized
(stripped) name, so an output repeating a record is impossible and
duplicate names collapse to one entry, and a record is in the output
exactly when it is what the claimed mapping associates to its normalized
name: the last detailed entry with that stripped name
(last-detailed-wins), or else a fresh default record materialized from a
non-empty stripped name that no detailed entry claimed (so empty names
are dropped).  Together the two last conjuncts make the output precisely
the mapping's values, each once. -/
theorem merge_algorithm (detailed : List Dict) (names : List String)
    (out : List Dict) (h : merge_awards detailed names = some out) :
    out.Pairwise (fun a b => pyStrLe (sortKey a) (sortKey b) = true) ∧
    (out.map fun r => pyStrip (sortKey r)).Nodup ∧
    (∀ v, v ∈ out ↔ mergeSpecLookup detailed names (pyStrip (sortKey v)) = some v) := by
  refine ⟨?_, merge_out_strip_nodup detailed names out h,
    fun v => merge_out_mem detailed names out h v⟩
  rcases merge_master detailed names out h with ⟨mf, _, _, _, hout⟩
  rw [hout]
  exact sortAwards_sorted _

/-- C6 witness: the algorithm theorem at a concrete input exercising
last-detailed-wins, an empty name, a duplicate name, and a name that
collides with a detailed entry after stripping; the duplicate and the
collision each leave one record, so the stripped names of the output are
distinct. -/
theorem merge_algorithm_witness :
    (([[("award_name", JsonVal.str "Bar"), ("registration_url", JsonVal.str ""),
        ("categories", JsonVal.arr []), ("organization", JsonVal.str "")],
       [("award_name", JsonVal.str "Foo"), ("organization", JsonVal.str "late")]] :
      List Dict).Pairwise (fun a b => pyStrLe (sortKey a) (sortKey b) = true)) ∧
    (([[("award_name", JsonVal.str "Bar"), ("registration_url", JsonVal.str ""),
        ("categories", JsonVal.arr []), ("organization", JsonVal.str "")],
       [("award_name", JsonVal.str "Foo"), ("organization", JsonVal.str "late")]] :
      List Dict).map fun r => pyStrip (sortKey r)).Nodup ∧
    (([("award_name", JsonVal.str "Foo"), ("organization", JsonVal.str "late")] : Dict) ∈
        ([[("award_name", JsonVal.str "Bar"), ("registration_url", JsonVal.str ""),
           ("categories", JsonVal.arr []), ("organization", JsonVal.str "")],
          [("award_name", JsonVal.str "Foo"), ("organization", JsonVal.str "late")]] :
          List Dict) ↔
      mergeSpecLookup
        [[("award_name", JsonVal.str " Foo "), ("organization", JsonVal.str "early")],
         [("award_name", JsonVal.str "Foo"), ("organization", JsonVal.str "late")]]
        ["", "Bar", "Bar", "Foo "]
        (pyStrip (sortKey [("award_name", JsonVal.str "Foo"),
          ("organization", JsonVal.str "late")])) =
        some [("award_name", JsonVal.str "Foo"), ("organization", JsonVal.str "late")]) :=
  ⟨(merge_algorithm
      [[("award_name", JsonVal.str " Foo "), ("organization", JsonVal.str "early")],
       [("award_name", JsonVal.str "Foo"), ("organization", JsonVal.str "late")]]
      ["", "Bar", "Bar", "Foo "] _ rfl).1,
   (merge_algorithm
      [[("award_name", JsonVal.str " Foo "), ("organization", JsonVal.str "early")],
       [("award_name", JsonVal.str "Foo"), ("organization", JsonVal.str "late")]]
      ["", "Bar", "Bar", "Foo "] _ rfl).2.1,
   (merge_algorithm
      [[("award_name", JsonVal.str " Foo "), ("organization", JsonVal.str "early")],
       [("award_name", JsonVal.str "Foo"), ("organization", JsonVal.str "late")]]
      ["", "Bar", "Bar", "Foo "] _ rfl).2.2 _⟩

/-- C8: merge is idempotent — feeding the merged output back in as the
detailed list with no extra names reproduces it exactly. -/
theorem merge_idem (A : List Dict) (B : List String) (out : List Dict)
    (h : merge_awards A B = some out) : merge_awards out [] = some out := by
  rcases merge_master A B out h with ⟨mf, hlook, hinv, hnd, hout⟩
  have hsort : out.Pairwise (fun a b => pyStrLe (sortKey a) (sortKey b) = true) := by
    rw [hout]
    exact sortAwards_sorted _
  have hname : ∀ v ∈ out, ∃ s, awardNameStr v = some s := by
    intro v hv
    rw [hout] at hv
    have hv2 : v ∈ mf.map Prod.snd := (sortAwards_perm _).mem_iff.mp hv
    rcases List.mem_map.mp hv2 with ⟨p, hp, hpv⟩
    rcases hinv p hp with ⟨s, hs, _⟩
    exact ⟨s, by rw [← hpv]; exact hs⟩
  have hnodup : (out.map fun v => pyStrip (sortKey v)).Nodup :=
    merge_out_strip_nodup A B out h
  unfold merge_awards
  rw [addDetailed_app out [] hname (by simp) hnodup]
  simp only [List.nil_append]
  have hsnd : ((out.map fun v => (pyStrip (sortKey v), v)).map Prod.snd) = out := by
    rw [List.map_map]
    have hid : (Prod.snd ∘ fun v : Dict => (pyStrip (sortKey v), v)) = id := rfl
    rw [hid, List.map_id]
  rw [show addNames [] (out.map fun v => (pyStrip (sortKey v), v)) =
      (out.map fun v => (pyStrip (sortKey v), v)) from rfl]
  rw [hsnd, sortAwards_eq_of_sorted out hsort]

/-- C8 witness: idempotence at a concrete merge of one detailed entry and
one bare name. -/
theorem merge_idem_witness :
    merge_awards
      [[("award_name", JsonVal.str "B")],
       [("award_name", JsonVal.str "a"), ("registration_url", JsonVal.str ""),
        ("categories", JsonVal.arr []), ("organization", JsonVal.str "")]] [] =
    some
      [[("award_name", JsonVal.str "B")],
       [("award_name", JsonVal.str "a"), ("registration_url", JsonVal.str ""),
        ("categories", JsonVal.arr []), ("organization", JsonVal.str "")]] :=
  merge_idem [[("award_name", JsonVal.str "B")]] ["a"] _ rfl

theorem firstBraceIdx_spec (cs : List Char) (i : Nat) (h : firstBraceIdx cs = some i) :
    cs[i]? = some '{' ∧ ∀ m, m < i → cs[m]? ≠ some '{' := by
  rcases List.findIdx?_eq_some_iff_getElem.mp h with ⟨hlt, hp, hmin⟩
  constructor
  · exact List.getElem?_eq_some.mpr ⟨hlt, by simpa using hp⟩
  · intro m hm hsome
    rcases List.getElem?_eq_some.mp hsome with ⟨hm2, he⟩
    have := hmin m hm
    rw [he] at this
    simp at this

theorem firstBraceIdx_le (cs : List Char) (i n : Nat) (h : firstBraceIdx cs = some i)
    (hn : cs[n]? = some '{') : i ≤ n := by
  by_contra hni
  exact (firstBraceIdx_spec cs i h).2 n (Nat.lt_of_not_le hni) hn

theorem firstBraceIdx_isSome_of (cs : List Char) (n : Nat) (hn : cs[n]? = some '{') :
    (firstBraceIdx cs).isSome := by
  cases hf : firstBraceIdx cs with
  | some i => rfl
  | none =>
    have := List.findIdx?_eq_none_iff.mp hf '{' (List.getElem?_mem hn)
    simp at this

theorem lastBraceIdx_spec (cs : List Char) (e : Nat) (h : lastBraceIdx cs = some e) :
    cs[e]? = some '}' ∧ ∀ m, e < m → cs[m]? ≠ some '}' := by
  unfold lastBraceIdx at h
  cases hr : cs.reverse.findIdx? (fun c => c = '}') with
  | none => rw [hr] at h; cases h
  | some r =>
    rw [hr] at h
    cases h
    rcases List.findIdx?_eq_some_iff_getElem.mp hr with ⟨hlt, hp, hmin⟩
    rw [List.length_reverse] at hlt
    have hrev : cs.reverse[r]? = cs[cs.length - 1 - r]? := by
      rw [List.getElem?_reverse (by simpa using hlt)]
    have hrsome : cs.reverse[r]? = some '}' := by
      refine List.getElem?_eq_some.mpr ⟨by simpa using hlt, ?_⟩
      simpa using hp
    constructor
    · rw [← hrev, hrsome]
    · intro m hm hsome
      have hmlen : m < cs.length := (List.getElem?_eq_some.mp hsome).1
      have hidx : cs.length - 1 - m < r := by omega
      have hrev2 : cs.reverse[cs.length - 1 - m]? = cs[m]? := by
        rw [List.getElem?_reverse (by omega)]
        congr 1
        omega
      have := hmin (cs.length - 1 - m) hidx
      rcases List.getElem?_eq_some.mp (hrev2.trans hsome) with ⟨hm2, he⟩
      rw [he] at this
      simp at this

theorem lastBraceIdx_ge (cs : List Char) (e n : Nat) (h : lastBraceIdx cs = some e)
    (hn : cs[n]? = some '}') : n ≤ e := by
  by_contra hne
  exact (lastBraceIdx_spec cs e h).2 n (Nat.lt_of_not_le hne) hn

theorem lastBraceIdx_isSome_of (cs : List Char) (n : Nat) (hn : cs[n]? = some '}') :
    (lastBraceIdx cs).isSome := by
  unfold lastBraceIdx
  cases hr : cs.reverse.findIdx? (fun c => c = '}') with
  | some r => rfl
  | none =>
    have hmem : '}' ∈ cs.reverse := by
      rw [List.mem_reverse]
      exact List.getElem?_mem hn
    have := List.findIdx?_eq_none_iff.mp hr '}' hmem
    simp at this

theorem extract_eq_of_found (s : String) (i j : Nat)
    (hi : firstBraceIdx s.data = some i) (hj : lastBraceIdx s.data = some j)
    (hij : i < j + 1) :
    extract s =
      (match parseJsonL ((s.data.drop i).take (j + 1 - i)) with
        | none => ExtractResult.malformedJson
        | some (JsonVal.obj fields) =>
          match dgetOpt fields "bookAward" with
          | some payload => ExtractResult.ok payload
          | none => ExtractResult.missingEnvelope
        | some _ => ExtractResult.missingEnvelope) := by
  show (match firstBraceIdx s.data, lastBraceIdx s.data with
    | some i0, some j0 =>
      if i0 < j0 + 1 then
        match parseJsonL ((s.data.drop i0).take (j0 + 1 - i0)) with
        | none => ExtractResult.malformedJson
        | some (JsonVal.obj fields) =>
          match dgetOpt fields "bookAward" with
          | some payload => ExtractResult.ok payload
          | none => ExtractResult.missingEnvelope
        | some _ => ExtractResult.missingEnvelope
      else ExtractResult.noJsonFound
    | _, _ => ExtractResult.noJsonFound) = _
  rw [hi, hj]
  simp only [if_pos hij]

theorem extract_malformed (s : String) (i j : Nat)
    (hi : firstBraceIdx s.data = some i) (hj : lastBraceIdx s.data = some j)
    (hij : i < j + 1)
    (hp : parseJsonL ((s.data.drop i).take (j + 1 - i)) = none) :
    extract s = ExtractResult.malformedJson := by
  rw [extract_eq_of_found s i j hi hj hij, hp]

theorem extract_missing_envelope (s : String) (i j : Nat) (fields : Dict)
    (hi : firstBraceIdx s.data = some i) (hj : lastBraceIdx s.data = some j)
    (hij : i < j + 1)
    (hp : parseJsonL ((s.data.drop i).take (j + 1 - i)) = some (JsonVal.obj fields))
    (henv : dgetOpt fields "bookAward" = none) :
    extract s = ExtractResult.missingEnvelope := by
  rw [extract_eq_of_found s i j hi hj hij, hp]
  simp only [henv]

theorem extract_ok (s : String) (i j : Nat) (fields : Dict) (payload : JsonVal)
    (hi : firstBraceIdx s.data = some i) (hj : lastBraceIdx s.data = some j)
    (hij : i < j + 1)
    (hp : parseJsonL ((s.data.drop i).take (j + 1 - i)) = some (JsonVal.obj fields))
    (henv : dgetOpt fields "bookAward" = some payload) :
    extract s = ExtractResult.ok payload := by
  rw [extract_eq_of_found s i j hi hj hij, hp]
  simp only [henv]

theorem extract_noJsonFound_iff (s : String) :
    extract s = ExtractResult.noJsonFound ↔
      ¬ ∃ i j : Nat, i ≤ j ∧ s.data[i]? = some '{' ∧ s.data[j]? = some '}' := by
  constructor
  · intro hex ⟨i, j, hij, hi, hj⟩
    have hfs : (firstBraceIdx s.data).isSome := firstBraceIdx_isSome_of s.data i hi
    have hls : (lastBraceIdx s.data).isSome := lastBraceIdx_isSome_of s.data j hj
    rcases Option.isSome_iff_exists.mp hfs with ⟨i0, hi0⟩
    rcases Option.isSome_iff_exists.mp hls with ⟨j0, hj0⟩
    have h1 : i0 ≤ i := firstBraceIdx_le s.data i0 i hi0 hi
    have h2 : j ≤ j0 := lastBraceIdx_ge s.data j0 j hj0 hj
    have hlt : i0 < j0 + 1 := by omega
    have := extract_eq_of_found s i0 j0 hi0 hj0 hlt
    rw [hex] at this
    cases hpp : parseJsonL ((s.data.drop i0).take (j0 + 1 - i0)) with
    | none => rw [hpp] at this; cases this
    | some v =>
      rw [hpp] at this
      cases v with
      | obj fields =>
        cases henv : dgetOpt fields "bookAward" with
        | none => simp [henv] at this
        | some payload => simp [henv] at this
      | null => simp at this
      | bool b => simp at this
      | num n => simp at this
      | fnum l => simp at this
      | str t => simp at this
      | arr xs => simp at this
  · intro hno
    show (match firstBraceIdx s.data, lastBraceIdx s.data with
      | some i0, some j0 =>
        if i0 < j0 + 1 then
          match parseJsonL ((s.data.drop i0).take (j0 + 1 - i0)) with
          | none => ExtractResult.malformedJson
          | some (JsonVal.obj fields) =>
            match dgetOpt fields "bookAward" with
            | some payload => ExtractResult.ok payload
            | none => ExtractResult.missingEnvelope
          | some _ => ExtractResult.missingEnvelope
        else ExtractResult.noJsonFound
      | _, _ => ExtractResult.noJsonFound) = ExtractResult.noJsonFound
    cases hi0 : firstBraceIdx s.data with
    | none => rfl
    | some i0 =>
      cases hj0 : lastBraceIdx s.data with
      | none => rfl
      | some j0 =>
        have hibrace := (firstBraceIdx_spec s.data i0 hi0).1
        have hjbrace := (lastBraceIdx_spec s.data j0 hj0).1
        have hnot : ¬ (i0 < j0 + 1) := by
          intro hlt
          exact hno ⟨i0, j0, by omega, hibrace, hjbrace⟩
        simp only [if_neg hnot]

theorem extract_round_trip (p1 jt p2 : String) (fields : Dict) (payload : JsonVal)
    (hp1 : '{' ∉ p1.data) (hp2 : '}' ∉ p2.data)
    (hstart : jt.data.head? = some '{') (hend : jt.data.getLast? = some '}')
    (hparse : parseJsonL jt.data = some (JsonVal.obj fields))
    (henv : dgetOpt fields "bookAward" = some payload) :
    extract (p1 ++ jt ++ p2) = ExtractResult.ok payload := by
  set A := p1.data with hA0
  set B := jt.data with hB0
  set C := p2.data with hC0
  have hL : (p1 ++ jt ++ p2).data = (A ++ B) ++ C := by
    rw [String.data_append, String.data_append]
  obtain ⟨t, hBt⟩ : ∃ t, B = '{' :: t := by
    cases hB : B with
    | nil => rw [hB] at hstart; cases hstart
    | cons c t =>
      rw [hB] at hstart
      cases hstart
      exact ⟨t, rfl⟩
  obtain ⟨u, hBr⟩ : ∃ u, B.reverse = '}' :: u := by
    have hh : B.reverse.head? = some '}' := by
      rw [List.head?_reverse]
      exact hend
    cases hB : B.reverse with
    | nil => rw [hB] at hh; cases hh
    | cons c u =>
      rw [hB] at hh
      cases hh
      exact ⟨u, rfl⟩
  have hBlen : 1 ≤ B.length := by
    rw [hBt]
    simp
  have hAnone : A.findIdx? (fun c => c = '{') = none := by
    refine List.findIdx?_eq_none_iff.mpr ?_
    intro x hx
    by_cases h : x = '{'
    · subst h
      exact absurd hx hp1
    · simpa using h
  have hCnone : C.reverse.findIdx? (fun c => c = '}') = none := by
    refine List.findIdx?_eq_none_iff.mpr ?_
    intro x hx
    rw [List.mem_reverse] at hx
    by_cases h : x = '}'
    · subst h
      exact absurd hx hp2
    · simpa using h
  have hBfirst : B.findIdx? (fun c => c = '{') = some 0 := by
    rw [hBt]
    simp [List.findIdx?_cons]
  have hBrfirst : B.reverse.findIdx? (fun c => c = '}') = some 0 := by
    rw [hBr]
    simp [List.findIdx?_cons]
  have hfirst : firstBraceIdx ((A ++ B) ++ C) = some A.length := by
    unfold firstBraceIdx
    rw [List.findIdx?_append, List.findIdx?_append, hAnone, hBfirst]
    simp
  have hrev : ((A ++ B) ++ C).reverse = C.reverse ++ (B.reverse ++ A.reverse) := by
    rw [List.reverse_append, List.reverse_append]
  have hfind : ((A ++ B) ++ C).reverse.findIdx? (fun c => c = '}') = some C.length := by
    rw [hrev, List.findIdx?_append, List.findIdx?_append, hCnone, hBrfirst]
    simp
  have hlast : lastBraceIdx ((A ++ B) ++ C) = some (A.length + B.length - 1) := by
    unfold lastBraceIdx
    rw [hfind]
    show some (((A ++ B) ++ C).length - 1 - C.length) = some (A.length + B.length - 1)
    congr 1
    simp only [List.length_append]
    omega
  have hdrop : ((A ++ B) ++ C).drop A.length = B ++ C := by
    rw [List.append_assoc]
    simp
  have harith2 : (A.length + B.length - 1) + 1 - A.length = B.length := by
    omega
  refine extract_ok (p1 ++ jt ++ p2) A.length (A.length + B.length - 1) fields payload
    ?_ ?_ (by omega) ?_ henv
  · rw [hL]
    exact hfirst
  · rw [hL]
    exact hlast
  · rw [hL, harith2, hdrop]
    rw [show (B ++ C).take B.length = B from by simp]
    exact hparse

/-- C3: total specification of the extractor — (1) it fails with
`NoJsonFound` exactly when no `{` occurs at or before a `}` in the text;
(2) when the first `{` and last `}` are found in order but the enclosed
substring is not valid JSON it fails with `MalformedJson`; (3) when that
substring parses to an object without a top-level `bookAward` key it
fails with `MissingEnvelope`; (4) otherwise it returns the `bookAward`
payload unmodified; and (5) for any `bookAward`-enveloped JSON text
surrounded by brace-free prose it returns the inner payload unchanged. -/
theorem extractor_total_spec :
    (∀ s : String, extract s = ExtractResult.noJsonFound ↔
      ¬ ∃ i j : Nat, i ≤ j ∧ s.data[i]? = some '{' ∧ s.data[j]? = some '}') ∧
    (∀ (s : String) (i j : Nat),
      firstBraceIdx s.data = some i → lastBraceIdx s.data = some j → i < j + 1 →
      parseJsonL ((s.data.drop i).take (j + 1 - i)) = none →
      extract s = ExtractResult.malformedJson) ∧
    (∀ (s : String) (i j : Nat) (fields : Dict),
      firstBraceIdx s.data = some i → lastBraceIdx s.data = some j → i < j + 1 →
      parseJsonL ((s.data.drop i).take (j + 1 - i)) = some (JsonVal.obj fields) →
      dgetOpt fields "bookAward" = none →
      extract s = ExtractResult.missingEnvelope) ∧
    (∀ (s : String) (i j : Nat) (fields : Dict) (payload : JsonVal),
      firstBraceIdx s.data = some i → lastBraceIdx s.data = some j → i < j + 1 →
      parseJsonL ((s.data.drop i).take (j + 1 - i)) = some (JsonVal.obj fields) →
      dgetOpt fields "bookAward" = some payload →
      extract s = ExtractResult.ok payload) ∧
    (∀ (p1 jt p2 : String) (fields : Dict) (payload : JsonVal),
      '{' ∉ p1.data → '}' ∉ p2.data →
      jt.data.head? = some '{' → jt.data.getLast? = some '}' →
      parseJsonL jt.data = some (JsonVal.obj fields) →
      dgetOpt fields "bookAward" = some payload →
      extract (p1 ++ jt ++ p2) = ExtractResult.ok payload) :=
  ⟨extract_noJsonFound_iff, extract_malformed, extract_missing_envelope,
   extract_ok, extract_round_trip⟩

/-- C3 witness: the extractor specification applied at the spec's own
concrete examples, including round trips through prose-wrapped JSON — one
integer-valued payload and one float-valued payload, the latter checking
that a reply whose payload carries a float such as 1.5 parses and is
returned rather than reported malformed. -/
theorem extractor_total_spec_witness :
    extract "no braces here" = ExtractResult.noJsonFound ∧
    extract "\x7bnot json\x7d" = ExtractResult.malformedJson ∧
    extract "\x7b\"other\": 1\x7d" = ExtractResult.missingEnvelope ∧
    extract ("noise " ++ "\x7b\"bookAward\": \x7b\"x\": 1\x7d\x7d" ++ " tail") =
      ExtractResult.ok (JsonVal.obj [("x", JsonVal.num 1)]) ∧
    extract ("pre " ++ "\x7b\"bookAward\": \x7b\"x\": 1.5\x7d\x7d" ++ " post") =
      ExtractResult.ok (JsonVal.obj [("x", JsonVal.fnum "1.5")]) :=
  ⟨(extractor_total_spec.1 "no braces here").mpr
      (fun hex => by
        rcases hex with ⟨i, j, _, hi, _⟩
        exact absurd (List.getElem?_mem hi) (by decide)),
   extractor_total_spec.2.1 "\x7bnot json\x7d" 0 9 rfl rfl (by decide) rfl,
   extractor_total_spec.2.2.1 "\x7b\"other\": 1\x7d" 0 11 [("other", JsonVal.num 1)]
     rfl rfl (by decide) rfl rfl,
   extractor_total_spec.2.2.2.2 "noise " "\x7b\"bookAward\": \x7b\"x\": 1\x7d\x7d" " tail"
     [("bookAward", JsonVal.obj [("x", JsonVal.num 1)])] (JsonVal.obj [("x", JsonVal.num 1)])
     (by decide) (by decide) rfl rfl rfl rfl,
   extractor_total_spec.2.2.2.2 "pre " "\x7b\"bookAward\": \x7b\"x\": 1.5\x7d\x7d" " post"
     [("bookAward", JsonVal.obj [("x", JsonVal.fnum "1.5")])]
     (JsonVal.obj [("x", JsonVal.fnum "1.5")])
     (by decide) (by decide) rfl rfl rfl rfl⟩

theorem dgetOpt_enrichOne_name (apiKey : Option String) (ev : RecEvent) (d : Dict) :
    dgetOpt (enrichOne apiKey ev d) "award_name" = dgetOpt d "award_name" := by
  cases ev with
  | interrupt => rfl
  | api o w =>
    show dgetOpt (get_award_info_from_perplexity apiKey o d) "award_name"
      = dgetOpt d "award_name"
    cases apiKey with
    | none => rfl
    | some k =>
      cases o with
      | timeout => rfl
      | requestError => rfl
      | httpError c => rfl
      | noChoices => rfl
      | content s =>
        show dgetOpt
          (match extract s with
           | ExtractResult.ok payload => dinsert d "enriched_data" payload
           | _ => d) "award_name" = dgetOpt d "award_name"
        cases extract s with
        | ok payload =>
          exact dgetOpt_dinsert_other d "enriched_data" "award_name" payload (by decide)
        | noJsonFound => rfl
        | malformedJson => rfl
        | missingEnvelope => rfl

theorem processedRecords_length (apiKey : Option String) (events : Nat → RecEvent)
    (records : List Dict) : ∀ i, (processedRecords apiKey events i records).length
      = records.length := by
  induction records with
  | nil => intro i; rfl
  | cons d rest ih =>
    intro i
    simp only [processedRecords, List.length_cons, ih (i + 1)]

theorem processedRecords_names (apiKey : Option String) (events : Nat → RecEvent)
    (records : List Dict) : ∀ i, (processedRecords apiKey events i records).map
      (fun d => dgetOpt d "award_name") = records.map (fun d => dgetOpt d "award_name") := by
  induction records with
  | nil => intro i; rfl
  | cons d rest ih =>
    intro i
    simp only [processedRecords, List.map_cons, ih (i + 1), dgetOpt_enrichOne_name]

theorem enrichLoop_api (apiKey : Option String) (events : Nat → RecEvent)
    (records : List Dict) :
    ∀ (i : Nat) (acc : List Dict) (cp : Option (List Dict)),
    (∀ d ∈ records, (dgetOpt d "award_name").isSome) →
    (∀ j, j < records.length → ∃ o w, events (i + j) = RecEvent.api o w) →
    (enrichLoop apiKey events i records acc cp).acc
        = acc ++ processedRecords apiKey events i records ∧
    (enrichLoop apiKey events i records acc cp).ending = RunExit.normal := by
  induction records with
  | nil =>
    intro i acc cp _ _
    constructor
    · show acc = acc ++ []
      simp
    · rfl
  | cons d rest ih =>
    intro i acc cp hkeys hapi
    rcases Option.isSome_iff_exists.mp (hkeys d (by simp)) with ⟨v, hv⟩
    rcases hapi 0 (by simp) with ⟨o, w, hev⟩
    rw [Nat.add_zero] at hev
    have hstep : enrichLoop apiKey events i (d :: rest) acc cp
        = (if w then
            enrichLoop apiKey events (i + 1) rest
              (acc ++ [get_award_info_from_perplexity apiKey o d])
              (some (acc ++ [get_award_info_from_perplexity apiKey o d]))
          else
            enrichLoop apiKey events (i + 1) rest
              (acc ++ [get_award_info_from_perplexity apiKey o d]) cp) := by
      show (if (dgetOpt d "award_name").isNone then (⟨acc, cp, RunExit.keyError⟩ : LoopResult)
        else match events i with
        | RecEvent.interrupt =>
          ⟨acc, if acc.isEmpty then cp else some acc, RunExit.interrupted⟩
        | RecEvent.api o w =>
          if w then enrichLoop apiKey events (i + 1) rest
              (acc ++ [get_award_info_from_perplexity apiKey o d])
              (some (acc ++ [get_award_info_from_perplexity apiKey o d]))
          else enrichLoop apiKey events (i + 1) rest
              (acc ++ [get_award_info_from_perplexity apiKey o d]) cp) = _
      rw [hv, hev]
      rfl
    have hknext : ∀ e ∈ rest, (dgetOpt e "award_name").isSome :=
      fun e he => hkeys e (List.mem_cons_of_mem _ he)
    have hanext : ∀ j, j < rest.length → ∃ o w, events ((i + 1) + j) = RecEvent.api o w := by
      intro j hj
      have := hapi (j + 1) (by simpa using Nat.succ_lt_succ hj)
      rwa [show i + (j + 1) = (i + 1) + j from by omega] at this
    have hproc : processedRecords apiKey events i (d :: rest)
        = get_award_info_from_perplexity apiKey o d :: processedRecords apiKey events (i + 1) rest := by
      show enrichOne apiKey (events i) d :: _ = _
      rw [hev]
      rfl
    cases w with
    | true =>
      rw [hstep, if_pos rfl]
      rcases ih (i + 1) (acc ++ [get_award_info_from_perplexity apiKey o d]) _ hknext hanext
        with ⟨h1, h2⟩
      refine ⟨?_, h2⟩
      rw [h1, hproc]
      simp
    | false =>
      rw [hstep, if_neg (by simp)]
      rcases ih (i + 1) (acc ++ [get_award_info_from_perplexity apiKey o d]) cp hknext hanext
        with ⟨h1, h2⟩
      refine ⟨?_, h2⟩
      rw [h1, hproc]
      simp

theorem enrichLoop_cons_api (apiKey : Option String) (events : Nat → RecEvent)
    (i : Nat) (d : Dict) (rest acc : List Dict) (cp : Option (List Dict))
    (o : ApiOutcome) (w : Bool)
    (hv : (dgetOpt d "award_name").isSome) (hev : events i = RecEvent.api o w) :
    enrichLoop apiKey events i (d :: rest) acc cp =
      (if w then
        enrichLoop apiKey events (i + 1) rest
          (acc ++ [get_award_info_from_perplexity apiKey o d])
          (some (acc ++ [get_award_info_from_perplexity apiKey o d]))
      else
        enrichLoop apiKey events (i + 1) rest
          (acc ++ [get_award_info_from_perplexity apiKey o d]) cp) := by
  rcases Option.isSome_iff_exists.mp hv with ⟨v, hveq⟩
  show (if (dgetOpt d "award_name").isNone then (⟨acc, cp, RunExit.keyError⟩ : LoopResult)
    else match events i with
    | RecEvent.interrupt =>
      ⟨acc, if acc.isEmpty then cp else some acc, RunExit.interrupted⟩
    | RecEvent.api o w =>
      if w then enrichLoop apiKey events (i + 1) rest
          (acc ++ [get_award_info_from_perplexity apiKey o d])
          (some (acc ++ [get_award_info_from_perplexity apiKey o d]))
      else enrichLoop apiKey events (i + 1) rest
          (acc ++ [get_award_info_from_perplexity apiKey o d]) cp) = _
  rw [hveq, hev]
  rfl

theorem enrichLoop_cons_interrupt (apiKey : Option String) (events : Nat → RecEvent)
    (i : Nat) (d : Dict) (rest acc : List Dict) (cp : Option (List Dict))
    (hv : (dgetOpt d "award_name").isSome) (hev : events i = RecEvent.interrupt) :
    enrichLoop apiKey events i (d :: rest) acc cp =
      ⟨acc, if acc.isEmpty then cp else some acc, RunExit.interrupted⟩ := by
  rcases Option.isSome_iff_exists.mp hv with ⟨v, hveq⟩
  show (if (dgetOpt d "award_name").isNone then (⟨acc, cp, RunExit.keyError⟩ : LoopResult)
    else match events i with
    | RecEvent.interrupt =>
      ⟨acc, if acc.isEmpty then cp else some acc, RunExit.interrupted⟩
    | RecEvent.api o w =>
      if w then enrichLoop apiKey events (i + 1) rest
          (acc ++ [get_award_info_from_perplexity apiKey o d])
          (some (acc ++ [get_award_info_from_perplexity apiKey o d]))
      else enrichLoop apiKey events (i + 1) rest
          (acc ++ [get_award_info_from_perplexity apiKey o d]) cp) = _
  rw [hveq, hev]
  rfl

theorem processedRecords_cons_api (apiKey : Option String) (events : Nat → RecEvent)
    (i : Nat) (d : Dict) (rest : List Dict) (o : ApiOutcome) (w : Bool)
    (hev : events i = RecEvent.api o w) :
    processedRecords apiKey events i (d :: rest)
      = get_award_info_from_perplexity apiKey o d
        :: processedRecords apiKey events (i + 1) rest := by
  show enrichOne apiKey (events i) d :: _ = _
  rw [hev]
  rfl

theorem enrichLoop_cp_ok (apiKey : Option String) (events : Nat → RecEvent)
    (records : List Dict) :
    ∀ (i : Nat) (acc : List Dict) (cp : Option (List Dict)),
    records ≠ [] →
    (∀ d ∈ records, (dgetOpt d "award_name").isSome) →
    (∀ j, j < records.length → ∃ o, events (i + j) = RecEvent.api o true) →
    (enrichLoop apiKey events i records acc cp).checkpoint
      = some (acc ++ processedRecords apiKey events i records) := by
  induction records with
  | nil => intro i acc cp hne _ _; exact absurd rfl hne
  | cons d rest ih =>
    intro i acc cp _ hkeys hapi
    rcases hapi 0 (by simp) with ⟨o, hev⟩
    rw [Nat.add_zero] at hev
    have hv := hkeys d (by simp)
    rw [enrichLoop_cons_api apiKey events i d rest acc cp o true hv hev, if_pos rfl]
    rw [processedRecords_cons_api apiKey events i d rest o true hev]
    have hknext : ∀ e ∈ rest, (dgetOpt e "award_name").isSome :=
      fun e he => hkeys e (List.mem_cons_of_mem _ he)
    have hanext : ∀ j, j < rest.length → ∃ o, events ((i + 1) + j) = RecEvent.api o true := by
      intro j hj
      have := hapi (j + 1) (by simpa using Nat.succ_lt_succ hj)
      rwa [show i + (j + 1) = (i + 1) + j from by omega] at this
    cases hrest : rest with
    | nil =>
      show (enrichLoop apiKey events (i + 1) []
        (acc ++ [get_award_info_from_perplexity apiKey o d])
        (some (acc ++ [get_award_info_from_perplexity apiKey o d]))).checkpoint = _
      show some (acc ++ [get_award_info_from_perplexity apiKey o d]) = _
      simp [processedRecords]
    | cons e rest2 =>
      rw [← hrest]
      have := ih (i + 1) (acc ++ [get_award_info_from_perplexity apiKey o d])
        (some (acc ++ [get_award_info_from_perplexity apiKey o d]))
        (by rw [hrest]; simp) hknext hanext
      rw [this]
      simp

theorem enrichLoop_cp_allfail (apiKey : Option String) (events : Nat → RecEvent)
    (records : List Dict) :
    ∀ (i : Nat) (acc : List Dict) (cp : Option (List Dict)),
    (∀ d ∈ records, (dgetOpt d "award_name").isSome) →
    (∀ j, j < records.length → ∃ o, events (i + j) = RecEvent.api o false) →
    (enrichLoop apiKey events i records acc cp).checkpoint = cp := by
  induction records with
  | nil => intro i acc cp _ _; rfl
  | cons d rest ih =>
    intro i acc cp hkeys hapi
    rcases hapi 0 (by simp) with ⟨o, hev⟩
    rw [Nat.add_zero] at hev
    have hv := hkeys d (by simp)
    rw [enrichLoop_cons_api apiKey events i d rest acc cp o false hv hev,
      if_neg (by simp)]
    refine ih (i + 1) _ cp (fun e he => hkeys e (List.mem_cons_of_mem _ he)) ?_
    intro j hj
    have := hapi (j + 1) (by simpa using Nat.succ_lt_succ hj)
    rwa [show i + (j + 1) = (i + 1) + j from by omega] at this

theorem enrichLoop_interrupt_at (apiKey : Option String) (events : Nat → RecEvent)
    (k : Nat) :
    ∀ (records : List Dict) (i : Nat) (acc : List Dict) (cp : Option (List Dict)),
    k < records.length →
    (∀ d ∈ records, (dgetOpt d "award_name").isSome) →
    (∀ j, j < k → ∃ o, events (i + j) = RecEvent.api o true) →
    events (i + k) = RecEvent.interrupt →
    enrichLoop apiKey events i records acc cp =
      ⟨acc ++ processedRecords apiKey events i (records.take k),
       if (acc ++ processedRecords apiKey events i (records.take k)).isEmpty then cp
       else some (acc ++ processedRecords apiKey events i (records.take k)),
       RunExit.interrupted⟩ := by
  induction k with
  | zero =>
    intro records i acc cp hk hkeys _ hint
    cases records with
    | nil => simp at hk
    | cons d rest =>
      rw [Nat.add_zero] at hint
      rw [enrichLoop_cons_interrupt apiKey events i d rest acc cp (hkeys d (by simp)) hint]
      have h0 : processedRecords apiKey events i ((d :: rest).take 0) = [] := rfl
      rw [h0, List.append_nil]
  | succ k ih =>
    intro records i acc cp hk hkeys hok hint
    cases records with
    | nil => simp at hk
    | cons d rest =>
      rcases hok 0 (by omega) with ⟨o, hev⟩
      rw [Nat.add_zero] at hev
      rw [enrichLoop_cons_api apiKey events i d rest acc cp o true (hkeys d (by simp)) hev,
        if_pos rfl]
      have hknext : ∀ e ∈ rest, (dgetOpt e "award_name").isSome :=
        fun e he => hkeys e (List.mem_cons_of_mem _ he)
      have hoknext : ∀ j, j < k → ∃ o, events ((i + 1) + j) = RecEvent.api o true := by
        intro j hj
        have := hok (j + 1) (by omega)
        rwa [show i + (j + 1) = (i + 1) + j from by omega] at this
      have hintnext : events ((i + 1) + k) = RecEvent.interrupt := by
        rwa [show (i + 1) + k = i + (k + 1) from by omega]
      have hklt : k < rest.length := by
        simp only [List.length_cons] at hk
        omega
      rw [ih rest (i + 1) (acc ++ [get_award_info_from_perplexity apiKey o d])
        (some (acc ++ [get_award_info_from_perplexity apiKey o d])) hklt hknext hoknext hintnext]
      have htake : (d :: rest).take (k + 1) = d :: rest.take k := rfl
      rw [htake, processedRecords_cons_api apiKey events i d (rest.take k) o true hev]
      have hne : (acc ++ [get_award_info_from_perplexity apiKey o d]
          ++ processedRecords apiKey events (i + 1) (rest.take k)).isEmpty = false := by
        simp
      have hne2 : (acc ++ (get_award_info_from_perplexity apiKey o d
          :: processedRecords apiKey events (i + 1) (rest.take k))).isEmpty = false := by
        simp
      rw [hne, hne2]
      simp

theorem enrich_awards_normal (apiKey : Option String) (events : Nat → RecEvent)
    (awards : List Dict) (limit : Option Int) (cp0 : Option (List Dict))
    (hn : (enrichLoop apiKey events 0 (workingSubset awards limit) [] cp0).ending
      = RunExit.normal) :
    enrich_awards_with_perplexity apiKey events awards limit cp0 =
      ⟨some ((enrichLoop apiKey events 0 (workingSubset awards limit) [] cp0).acc ++
        tailRecords awards limit),
       (enrichLoop apiKey events 0 (workingSubset awards limit) [] cp0).checkpoint,
       RunExit.normal⟩ := by
  simp only [enrich_awards_with_perplexity]
  rw [hn]

theorem enrich_awards_abnormal (apiKey : Option String) (events : Nat → RecEvent)
    (awards : List Dict) (limit : Option Int) (cp0 : Option (List Dict))
    (hn : (enrichLoop apiKey events 0 (workingSubset awards limit) [] cp0).ending
      = RunExit.interrupted) :
    enrich_awards_with_perplexity apiKey events awards limit cp0 =
      ⟨none,
       (enrichLoop apiKey events 0 (workingSubset awards limit) [] cp0).checkpoint,
       RunExit.interrupted⟩ := by
  simp only [enrich_awards_with_perplexity]
  rw [hn]

theorem pySlice_append {α : Type} (l : List α) (n : Int) :
    pySliceTo l n ++ pySliceFrom l n = l := by
  unfold pySliceTo pySliceFrom
  by_cases h : 0 ≤ n
  · rw [if_pos h, if_pos h, List.take_append_drop]
  · rw [if_neg h, if_neg h, List.take_append_drop]

theorem pySliceTo_all {α : Type} (l : List α) (n : Int) (h1 : ¬ n < (l.length : Int))
    (h2 : 0 ≤ n) : pySliceTo l n = l := by
  unfold pySliceTo
  rw [if_pos h2]
  exact List.take_of_length_le (by omega)

theorem tailRecords_names (awards : List Dict) (limit : Option Int) :
    (tailRecords awards limit).map (fun d => dgetOpt d "award_name") =
      (match limit with
       | none => ([] : List Dict)
       | some n =>
         if n ≠ 0 ∧ n < (awards.length : Int) then pySliceFrom awards n
         else []).map (fun d => dgetOpt d "award_name") := by
  cases limit with
  | none => rfl
  | some n =>
    simp only [tailRecords]
    by_cases h : n ≠ 0 ∧ n < (awards.length : Int)
    · rw [if_pos h, if_pos h, List.map_map]
      apply List.map_congr_left
      intro d _
      exact dgetOpt_dinsert_other d "enriched_data" "award_name" limitSentinel (by decide)
    · rw [if_neg h, if_neg h]

theorem subset_tail_append (awards : List Dict) (limit : Option Int) :
    workingSubset awards limit ++
      (match limit with
       | none => []
       | some n =>
         if n ≠ 0 ∧ n < (awards.length : Int) then pySliceFrom awards n else []) = awards := by
  cases limit with
  | none => simp [workingSubset]
  | some n =>
    by_cases h0 : n = 0
    · subst h0
      simp [workingSubset]
    · simp only [workingSubset, if_neg h0]
      by_cases h1 : n < (awards.length : Int)
      · rw [if_pos ⟨h0, h1⟩]
        exact pySlice_append awards n
      · rw [if_neg (by
          intro hc
          exact h1 hc.2)]
        rw [List.append_nil]
        exact pySliceTo_all awards n h1 (by omega)

theorem workingSubset_mem (awards : List Dict) (limit : Option Int) (d : Dict)
    (h : d ∈ workingSubset awards limit) : d ∈ awards := by
  cases limit with
  | none => exact h
  | some n =>
    simp only [workingSubset] at h
    by_cases h0 : n = 0
    · rw [if_pos h0] at h
      exact h
    · rw [if_neg h0] at h
      unfold pySliceTo at h
      by_cases h1 : 0 ≤ n
      · rw [if_pos h1] at h
        exact List.take_subset _ _ h
      · rw [if_neg h1] at h
        exact List.take_subset _ _ h

/-- C2 (amended): checkpoint monotonicity of the enrichment run — (1)
after the loop completes any non-empty record sequence with successful
checkpoint writes, the partial checkpoint equals the accumulated output,
one record per input in order (instantiating the sequence with the first
`i` records gives the state after record `i`); (2) an interrupt at record
`k+1` re-raises the cancellation and leaves the checkpoint at the
accumulated output for records `1..k` — except that when nothing has been
accumulated yet the flush is skipped and the checkpoint keeps its prior
content. -/
theorem checkpoint_monotonicity :
    (∀ (apiKey : Option String) (events : Nat → RecEvent) (awards : List Dict)
        (cp0 : Option (List Dict)),
      awards ≠ [] →
      (∀ d ∈ awards, (dgetOpt d "award_name").isSome) →
      (∀ j, j < awards.length → ∃ o, events j = RecEvent.api o true) →
      (enrich_awards_with_perplexity apiKey events awards none cp0).ending
          = RunExit.normal ∧
      (enrich_awards_with_perplexity apiKey events awards none cp0).retVal
          = some (processedRecords apiKey events 0 awards) ∧
      (enrich_awards_with_perplexity apiKey events awards none cp0).checkpoint
          = some (processedRecords apiKey events 0 awards)) ∧
    (∀ (apiKey : Option String) (events : Nat → RecEvent) (awards : List Dict)
        (cp0 : Option (List Dict)) (k : Nat),
      k < awards.length →
      (∀ d ∈ awards, (dgetOpt d "award_name").isSome) →
      (∀ j, j < k → ∃ o, events j = RecEvent.api o true) →
      events k = RecEvent.interrupt →
      (enrich_awards_with_perplexity apiKey events awards none cp0).ending
          = RunExit.interrupted ∧
      (enrich_awards_with_perplexity apiKey events awards none cp0).retVal = none ∧
      (enrich_awards_with_perplexity apiKey events awards none cp0).checkpoint
          = (if k = 0 then cp0
             else some (processedRecords apiKey events 0 (awards.take k)))) := by
  constructor
  · intro apiKey events awards cp0 hne hkeys hwr
    have hsub : workingSubset awards (none : Option Int) = awards := rfl
    have hapi : ∀ j, j < awards.length → ∃ o w, events (0 + j) = RecEvent.api o w := by
      intro j hj
      rcases hwr j hj with ⟨o, ho⟩
      exact ⟨o, true, by rwa [Nat.zero_add]⟩
    have hwr0 : ∀ j, j < awards.length → ∃ o, events (0 + j) = RecEvent.api o true := by
      intro j hj
      rcases hwr j hj with ⟨o, ho⟩
      exact ⟨o, by rwa [Nat.zero_add]⟩
    have hloop := enrichLoop_api apiKey events awards 0 [] cp0 hkeys hapi
    have hcp := enrichLoop_cp_ok apiKey events awards 0 [] cp0 hne hkeys hwr0
    have hnorm : (enrichLoop apiKey events 0 (workingSubset awards none) [] cp0).ending
        = RunExit.normal := by
      rw [hsub]
      exact hloop.2
    rw [enrich_awards_normal apiKey events awards none cp0 hnorm]
    refine ⟨rfl, ?_, ?_⟩
    · show some ((enrichLoop apiKey events 0 (workingSubset awards none) [] cp0).acc
          ++ tailRecords awards none) = _
      rw [hsub, hloop.1, show tailRecords awards none = [] from rfl]
      simp
    · show (enrichLoop apiKey events 0 (workingSubset awards none) [] cp0).checkpoint = _
      rw [hsub, hcp]
      simp
  · intro apiKey events awards cp0 k hk hkeys hwr hint
    have hsub : workingSubset awards (none : Option Int) = awards := rfl
    have hwr0 : ∀ j, j < k → ∃ o, events (0 + j) = RecEvent.api o true := by
      intro j hj
      rcases hwr j hj with ⟨o, ho⟩
      exact ⟨o, by rwa [Nat.zero_add]⟩
    have hint0 : events (0 + k) = RecEvent.interrupt := by
      rwa [Nat.zero_add]
    have hloop := enrichLoop_interrupt_at apiKey events k awards 0 [] cp0 hk hkeys hwr0 hint0
    have habn : (enrichLoop apiKey events 0 (workingSubset awards none) [] cp0).ending
        = RunExit.interrupted := by
      rw [hsub, hloop]
    rw [enrich_awards_abnormal apiKey events awards none cp0 habn]
    refine ⟨rfl, rfl, ?_⟩
    show (enrichLoop apiKey events 0 (workingSubset awards none) [] cp0).checkpoint = _
    rw [hsub, hloop]
    show (if ([] ++ processedRecords apiKey events 0 (awards.take k)).isEmpty then cp0
        else some ([] ++ processedRecords apiKey events 0 (awards.take k))) = _
    rw [List.nil_append]
    have hlen : (processedRecords apiKey events 0 (awards.take k)).length = k := by
      rw [processedRecords_length, List.length_take]
      omega
    by_cases hk0 : k = 0
    · subst hk0
      have hnil : processedRecords apiKey events 0 (awards.take 0) = [] :=
        List.eq_nil_of_length_eq_zero hlen
      rw [hnil]
      simp
    · have hfalse : (processedRecords apiKey events 0 (awards.take k)).isEmpty = false := by
        cases hpr : processedRecords apiKey events 0 (awards.take k) with
        | nil => rw [hpr] at hlen; simp at hlen; omega
        | cons x xs => rfl
      rw [hfalse]
      simp [hk0]

/-- C2 counterexample: an interrupt before any record completes re-raises
without writing the checkpoint, so the checkpoint does not equal the
(empty) accumulated output, contradicting the claim's "including after a
simulated cancellation at any point". -/
theorem checkpoint_flush_counterexample :
    (enrich_awards_with_perplexity none (fun _ => RecEvent.interrupt)
      [[("award_name", JsonVal.str "A")]] none none).checkpoint = none ∧
    (enrich_awards_with_perplexity none (fun _ => RecEvent.interrupt)
      [[("award_name", JsonVal.str "A")]] none none).ending = RunExit.interrupted ∧
    (enrich_awards_with_perplexity none (fun _ => RecEvent.interrupt)
      [[("award_name", JsonVal.str "A")]] none none).checkpoint ≠ some [] :=
  ⟨rfl, rfl, fun h => by
    rw [show (enrich_awards_with_perplexity none (fun _ => RecEvent.interrupt)
      [[("award_name", JsonVal.str "A")]] none none).checkpoint = none from rfl] at h
    cases h⟩

/-- C2 witness: both parts of the monotonicity theorem at concrete runs —
a clean one-record run, and a run interrupted at the second record after
one successful record. -/
theorem checkpoint_monotonicity_witness :
    ((enrich_awards_with_perplexity none (fun _ => RecEvent.api ApiOutcome.timeout true)
        [[("award_name", JsonVal.str "A")]] none none).checkpoint
      = some [[("award_name", JsonVal.str "A")]]) ∧
    ((enrich_awards_with_perplexity none
        (fun j => if j = 0 then RecEvent.api ApiOutcome.timeout true else RecEvent.interrupt)
        [[("award_name", JsonVal.str "A")], [("award_name", JsonVal.str "B")]] none
        none).ending = RunExit.interrupted) ∧
    ((enrich_awards_with_perplexity none
        (fun j => if j = 0 then RecEvent.api ApiOutcome.timeout true else RecEvent.interrupt)
        [[("award_name", JsonVal.str "A")], [("award_name", JsonVal.str "B")]] none
        none).checkpoint = some [[("award_name", JsonVal.str "A")]]) :=
  ⟨(checkpoint_monotonicity.1 none (fun _ => RecEvent.api ApiOutcome.timeout true)
      [[("award_name", JsonVal.str "A")]] none (by simp) (by decide)
      (fun j hj => ⟨ApiOutcome.timeout, rfl⟩)).2.2,
   (checkpoint_monotonicity.2 none
      (fun j => if j = 0 then RecEvent.api ApiOutcome.timeout true else RecEvent.interrupt)
      [[("award_name", JsonVal.str "A")], [("award_name", JsonVal.str "B")]] none 1
      (by decide) (by decide)
      (fun j hj => by
        have hj0 : j = 0 := by omega
        subst hj0
        exact ⟨ApiOutcome.timeout, rfl⟩)
      rfl).1,
   (checkpoint_monotonicity.2 none
      (fun j => if j = 0 then RecEvent.api ApiOutcome.timeout true else RecEvent.interrupt)
      [[("award_name", JsonVal.str "A")], [("award_name", JsonVal.str "B")]] none 1
      (by decide) (by decide)
      (fun j hj => by
        have hj0 : j = 0 := by omega
        subst hj0
        exact ⟨ApiOutcome.timeout, rfl⟩)
      rfl).2.2⟩

/-- C4 (amended): limit semantics — under per-record API events (no
interrupt) and well-keyed records, the run completes normally; the output
has the same length and record order as the input (witnessed by the
`award_name` column); with no limit or limit 0 the whole sequence is
attempted; with a positive limit exactly the first `limit` records are
attempted and all later records carry the skip sentinel; with a negative
limit Python slicing attempts all but the last `|limit|` records and the
remainder carries the sentinel — not the entire sequence as claimed. -/
theorem limit_semantics (apiKey : Option String) (events : Nat → RecEvent)
    (awards : List Dict) (limit : Option Int) (cp0 : Option (List Dict))
    (hkeys : ∀ d ∈ awards, (dgetOpt d "award_name").isSome)
    (hapi : ∀ j, ∃ o w, events j = RecEvent.api o w) :
    (enrich_awards_with_perplexity apiKey events awards limit cp0).ending
        = RunExit.normal ∧
    (∃ outs, (enrich_awards_with_perplexity apiKey events awards limit cp0).retVal
        = some outs ∧
      outs.map (fun d => dgetOpt d "award_name")
        = awards.map (fun d => dgetOpt d "award_name")) ∧
    ((limit = none ∨ limit = some 0) →
      (enrich_awards_with_perplexity apiKey events awards limit cp0).retVal
        = some (processedRecords apiKey events 0 awards)) ∧
    (∀ n : Int, limit = some n → 0 < n →
      workingSubset awards limit = awards.take n.toNat ∧
      (enrich_awards_with_perplexity apiKey events awards limit cp0).retVal
        = some (processedRecords apiKey events 0 (awards.take n.toNat) ++
            (awards.drop n.toNat).map (fun a => dinsert a "enriched_data" limitSentinel))) ∧
    (∀ n : Int, limit = some n → n < 0 →
      workingSubset awards limit = awards.take (awards.length - n.natAbs) ∧
      (enrich_awards_with_perplexity apiKey events awards limit cp0).retVal
        = some (processedRecords apiKey events 0 (awards.take (awards.length - n.natAbs)) ++
            (awards.drop (awards.length - n.natAbs)).map
              (fun a => dinsert a "enriched_data" limitSentinel))) := by
  have hkeys2 : ∀ d ∈ workingSubset awards limit, (dgetOpt d "award_name").isSome :=
    fun d hd => hkeys d (workingSubset_mem awards limit d hd)
  have hapi2 : ∀ j, j < (workingSubset awards limit).length →
      ∃ o w, events (0 + j) = RecEvent.api o w := by
    intro j _
    rcases hapi (0 + j) with ⟨o, w, ho⟩
    exact ⟨o, w, ho⟩
  have hloop := enrichLoop_api apiKey events (workingSubset awards limit) 0 [] cp0
    hkeys2 hapi2
  have heq := enrich_awards_normal apiKey events awards limit cp0 hloop.2
  have hacc : (enrichLoop apiKey events 0 (workingSubset awards limit) [] cp0).acc
      = processedRecords apiKey events 0 (workingSubset awards limit) := by
    rw [hloop.1]
    simp
  refine ⟨by rw [heq], ?_, ?_, ?_, ?_⟩
  · refine ⟨processedRecords apiKey events 0 (workingSubset awards limit)
      ++ tailRecords awards limit, ?_, ?_⟩
    · rw [heq]
      show some _ = _
      rw [hacc]
    · rw [List.map_append, processedRecords_names, tailRecords_names,
        ← List.map_append, subset_tail_append]
  · intro hcase
    rw [heq]
    show some _ = _
    rw [hacc]
    rcases hcase with h | h
    · subst h
      show some (processedRecords apiKey events 0 awards ++ tailRecords awards none) = _
      rw [show tailRecords awards none = [] from rfl, List.append_nil]
    · subst h
      have h1 : workingSubset awards (some 0) = awards := by
        simp [workingSubset]
      have h2 : tailRecords awards (some 0) = [] := by
        simp [tailRecords]
      rw [h1, h2, List.append_nil]
  · intro n hl hpos
    subst hl
    have h1 : workingSubset awards (some n) = awards.take n.toNat := by
      simp only [workingSubset, if_neg (by omega : ¬ n = 0)]
      unfold pySliceTo
      rw [if_pos (by omega : (0:Int) ≤ n)]
    refine ⟨h1, ?_⟩
    rw [heq]
    show some _ = _
    rw [hacc, h1]
    by_cases hlen : n < (awards.length : Int)
    · have h2 : tailRecords awards (some n) =
          (awards.drop n.toNat).map (fun a => dinsert a "enriched_data" limitSentinel) := by
        simp only [tailRecords]
        rw [if_pos ⟨by omega, hlen⟩]
        unfold pySliceFrom
        rw [if_pos (by omega : (0:Int) ≤ n)]
      rw [h2]
    · have h2 : tailRecords awards (some n) = [] := by
        simp only [tailRecords]
        rw [if_neg (by
          intro hc
          exact hlen hc.2)]
      have h3 : awards.drop n.toNat = [] := by
        apply List.drop_eq_nil_of_le
        omega
      rw [h2, h3]
      simp
  · intro n hl hneg
    subst hl
    have htoNat : (-n).toNat = n.natAbs := by omega
    have h1 : workingSubset awards (some n) = awards.take (awards.length - n.natAbs) := by
      simp only [workingSubset, if_neg (by omega : ¬ n = 0)]
      unfold pySliceTo
      rw [if_neg (by omega : ¬ (0:Int) ≤ n), htoNat]
    refine ⟨h1, ?_⟩
    rw [heq]
    show some _ = _
    rw [hacc, h1]
    have h2 : tailRecords awards (some n) =
        (awards.drop (awards.length - n.natAbs)).map
          (fun a => dinsert a "enriched_data" limitSentinel) := by
      simp only [tailRecords]
      rw [if_pos ⟨by omega, by omega⟩]
      unfold pySliceFrom
      rw [if_neg (by omega : ¬ (0:Int) ≤ n), htoNat]
    rw [h2]

/-- C4 counterexample: with `limit = -1` on two records the loop visits
only the first record (Python's `awards[:-1]`), and the second output
record carries the skip sentinel although the claim demands the entire
sequence be attempted for a negative limit. -/
theorem limit_semantics_counterexample :
    workingSubset [[("award_name", JsonVal.str "A")], [("award_name", JsonVal.str "B")]]
        (some (-1)) ≠
      [[("award_name", JsonVal.str "A")], [("award_name", JsonVal.str "B")]] ∧
    (enrich_awards_with_perplexity none (fun _ => RecEvent.api ApiOutcome.timeout true)
        [[("award_name", JsonVal.str "A")], [("award_name", JsonVal.str "B")]]
        (some (-1)) none).retVal
      = some [[("award_name", JsonVal.str "A")],
              [("award_name", JsonVal.str "B"), ("enriched_data", limitSentinel)]] := by
  constructor
  · intro h
    have h2 := congrArg List.length h
    rw [show (workingSubset [[("award_name", JsonVal.str "A")],
      [("award_name", JsonVal.str "B")]] (some (-1))).length = 1 from rfl] at h2
    exact absurd h2 (by decide)
  · rfl

/-- C4 witness: the limit theorem at a two-record input with `limit = 1`:
the working subset is the first record and the second record comes back
with the skip sentinel. -/
theorem limit_semantics_witness :
    workingSubset [[("award_name", JsonVal.str "A")], [("award_name", JsonVal.str "B")]]
        (some 1) = [[("award_name", JsonVal.str "A")]] ∧
    (enrich_awards_with_perplexity none (fun _ => RecEvent.api ApiOutcome.timeout true)
        [[("award_name", JsonVal.str "A")], [("award_name", JsonVal.str "B")]]
        (some 1) none).retVal
      = some [[("award_name", JsonVal.str "A")],
              [("award_name", JsonVal.str "B"), ("enriched_data", limitSentinel)]] :=
  (limit_semantics none (fun _ => RecEvent.api ApiOutcome.timeout true)
      [[("award_name", JsonVal.str "A")], [("award_name", JsonVal.str "B")]]
      (some 1) none (by decide)
      (fun j => ⟨ApiOutcome.timeout, true, rfl⟩)).2.2.2.1 1 rfl (by decide)

/-- C5 (amended): per-record failure recovery — with missing credentials,
or on a timeout, request error, non-200 status, missing choices, or any
extraction failure, the record is returned with ALL fields unchanged (in
particular `enriched_data` stays absent whenever it was absent before,
but a pre-existing value is kept, not removed); only on full success is
the payload attached as `enriched_data`, replacing any previous value
wholesale and leaving every other field unchanged; and a batch of
completed (non-interrupt) events always runs to the end, one output
record per visited input record. -/
theorem per_record_failure_recovery :
    (∀ (o : ApiOutcome) (award : Dict),
      get_award_info_from_perplexity none o award = award) ∧
    (∀ (k : String) (award : Dict),
      get_award_info_from_perplexity (some k) ApiOutcome.timeout award = award ∧
      get_award_info_from_perplexity (some k) ApiOutcome.requestError award = award ∧
      (∀ c, get_award_info_from_perplexity (some k) (ApiOutcome.httpError c) award = award) ∧
      get_award_info_from_perplexity (some k) ApiOutcome.noChoices award = award) ∧
    (∀ (k s : String) (award : Dict),
      (∀ payload, extract s ≠ ExtractResult.ok payload) →
      get_award_info_from_perplexity (some k) (ApiOutcome.content s) award = award) ∧
    (∀ (k s : String) (award : Dict) (payload : JsonVal),
      extract s = ExtractResult.ok payload →
      get_award_info_from_perplexity (some k) (ApiOutcome.content s) award
        = dinsert award "enriched_data" payload ∧
      dgetOpt (get_award_info_from_perplexity (some k) (ApiOutcome.content s) award)
        "enriched_data" = some payload ∧
      (∀ f, f ≠ "enriched_data" →
        dgetOpt (get_award_info_from_perplexity (some k) (ApiOutcome.content s) award) f
          = dgetOpt award f)) ∧
    (∀ (apiKey : Option String) (events : Nat → RecEvent) (records : List Dict)
        (i : Nat) (acc : List Dict) (cp : Option (List Dict)),
      (∀ d ∈ records, (dgetOpt d "award_name").isSome) →
      (∀ j, j < records.length → ∃ o w, events (i + j) = RecEvent.api o w) →
      (enrichLoop apiKey events i records acc cp).ending = RunExit.normal ∧
      (enrichLoop apiKey events i records acc cp).acc
        = acc ++ processedRecords apiKey events i records) := by
  refine ⟨fun o award => rfl, fun k award => ⟨rfl, rfl, fun c => rfl, rfl⟩, ?_, ?_, ?_⟩
  · intro k s award hfail
    show (match extract s with
      | ExtractResult.ok payload => dinsert award "enriched_data" payload
      | _ => award) = award
    cases hx : extract s with
    | ok payload => exact absurd hx (hfail payload)
    | noJsonFound => rfl
    | malformedJson => rfl
    | missingEnvelope => rfl
  · intro k s award payload hok
    have heq : get_award_info_from_perplexity (some k) (ApiOutcome.content s) award
        = dinsert award "enriched_data" payload := by
      show (match extract s with
        | ExtractResult.ok payload => dinsert award "enriched_data" payload
        | _ => award) = _
      rw [hok]
    refine ⟨heq, ?_, ?_⟩
    · rw [heq]
      exact dgetOpt_dinsert_same award "enriched_data" payload
    · intro f hf
      rw [heq]
      exact dgetOpt_dinsert_other award "enriched_data" f payload hf
  · intro apiKey events records i acc cp hkeys hapi
    exact ⟨(enrichLoop_api apiKey events records i acc cp hkeys hapi).2,
      (enrichLoop_api apiKey events records i acc cp hkeys hapi).1⟩

/-- C5 counterexample: a record that already carries `enriched_data`
keeps its OLD value when the call fails (here: a timeout), so the claim's
"`enriched_data` absent" is false for such records. -/
theorem per_record_failure_counterexample :
    get_award_info_from_perplexity (some "key") ApiOutcome.timeout
        [("award_name", JsonVal.str "A"), ("enriched_data", JsonVal.num 7)]
      = [("award_name", JsonVal.str "A"), ("enriched_data", JsonVal.num 7)] ∧
    dgetOpt (get_award_info_from_perplexity (some "key") ApiOutcome.timeout
        [("award_name", JsonVal.str "A"), ("enriched_data", JsonVal.num 7)])
      "enriched_data" ≠ none :=
  ⟨rfl, fun h => by
    rw [show dgetOpt (get_award_info_from_perplexity (some "key") ApiOutcome.timeout
        [("award_name", JsonVal.str "A"), ("enriched_data", JsonVal.num 7)])
      "enriched_data" = some (JsonVal.num 7) from rfl] at h
    cases h⟩

/-- C5 witness: the recovery theorem at concrete calls — a timeout
leaving a fresh record unchanged, a malformed reply leaving it unchanged,
and a successful reply attaching the payload wholesale. -/
theorem per_record_failure_recovery_witness :
    get_award_info_from_perplexity (some "key") ApiOutcome.timeout
        [("award_name", JsonVal.str "A")] = [("award_name", JsonVal.str "A")] ∧
    get_award_info_from_perplexity (some "key") (ApiOutcome.content "\x7bnot json\x7d")
        [("award_name", JsonVal.str "A")] = [("award_name", JsonVal.str "A")] ∧
    get_award_info_from_perplexity (some "key")
        (ApiOutcome.content "\x7b\"bookAward\": \x7b\"x\": 1\x7d\x7d")
        [("award_name", JsonVal.str "A")]
      = dinsert [("award_name", JsonVal.str "A")] "enriched_data"
          (JsonVal.obj [("x", JsonVal.num 1)]) :=
  ⟨(per_record_failure_recovery.2.1 "key" [("award_name", JsonVal.str "A")]).1,
   per_record_failure_recovery.2.2.1 "key" "\x7bnot json\x7d"
     [("award_name", JsonVal.str "A")]
     (fun payload h => by
       rw [show extract "\x7bnot json\x7d" = ExtractResult.malformedJson from rfl] at h
       cases h),
   (per_record_failure_recovery.2.2.2.1 "key" "\x7b\"bookAward\": \x7b\"x\": 1\x7d\x7d"
     [("award_name", JsonVal.str "A")] (JsonVal.obj [("x", JsonVal.num 1)]) rfl).1⟩

/-- C7 (amended): a checkpoint write failure is caught by the loop's
generic exception handler: the run continues with the next record and
completes normally, the in-memory results are not rolled back (every
visited record still appears in the output), and when every write fails
the checkpoint keeps its prior content — the failure is NOT surfaced to
the caller. -/
theorem checkpoint_write_failure_swallowed (apiKey : Option String)
    (events : Nat → RecEvent) (awards : List Dict) (cp0 : Option (List Dict))
    (hkeys : ∀ d ∈ awards, (dgetOpt d "award_name").isSome)
    (hapi : ∀ j, ∃ o w, events j = RecEvent.api o w) :
    (enrich_awards_with_perplexity apiKey events awards none cp0).ending
        = RunExit.normal ∧
    (enrich_awards_with_perplexity apiKey events awards none cp0).retVal
        = some (processedRecords apiKey events 0 awards) ∧
    ((∀ j, j < awards.length → ∃ o, events j = RecEvent.api o false) →
      (enrich_awards_with_perplexity apiKey events awards none cp0).checkpoint = cp0) := by
  have hsub : workingSubset awards (none : Option Int) = awards := rfl
  have hapi2 : ∀ j, j < awards.length → ∃ o w, events (0 + j) = RecEvent.api o w := by
    intro j _
    rcases hapi (0 + j) with ⟨o, w, ho⟩
    exact ⟨o, w, ho⟩
  have hloop := enrichLoop_api apiKey events awards 0 [] cp0 hkeys hapi2
  have hnorm : (enrichLoop apiKey events 0 (workingSubset awards none) [] cp0).ending
      = RunExit.normal := by
    rw [hsub]
    exact hloop.2
  rw [enrich_awards_normal apiKey events awards none cp0 hnorm]
  refine ⟨rfl, ?_, ?_⟩
  · show some ((enrichLoop apiKey events 0 (workingSubset awards none) [] cp0).acc
        ++ tailRecords awards none) = _
    rw [hsub, hloop.1, show tailRecords awards none = [] from rfl]
    simp
  · intro hfail
    show (enrichLoop apiKey events 0 (workingSubset awards none) [] cp0).checkpoint = cp0
    rw [hsub]
    refine enrichLoop_cp_allfail apiKey events awards 0 [] cp0 hkeys ?_
    intro j hj
    rcases hfail j hj with ⟨o, ho⟩
    exact ⟨o, by rwa [Nat.zero_add]⟩

/-- C7 counterexample: a run whose only checkpoint write raises completes
normally and returns its record — the write failure is converted into
continue-with-next-record, not surfaced to the caller as the claim
demands. -/
theorem checkpoint_write_failure_counterexample :
    (enrich_awards_with_perplexity none (fun _ => RecEvent.api ApiOutcome.timeout false)
        [[("award_name", JsonVal.str "A")]] none (some [])).ending = RunExit.normal ∧
    (enrich_awards_with_perplexity none (fun _ => RecEvent.api ApiOutcome.timeout false)
        [[("award_name", JsonVal.str "A")]] none (some [])).retVal
      = some [[("award_name", JsonVal.str "A")]] ∧
    (enrich_awards_with_perplexity none (fun _ => RecEvent.api ApiOutcome.timeout false)
        [[("award_name", JsonVal.str "A")]] none (some [])).checkpoint = some [] :=
  ⟨rfl, rfl, rfl⟩

/-- C7 witness: the amended theorem at a concrete run where every
checkpoint write fails: it completes normally, keeps the record, and the
checkpoint retains its previous content. -/
theorem checkpoint_write_failure_swallowed_witness :
    (enrich_awards_with_perplexity none (fun _ => RecEvent.api ApiOutcome.timeout false)
        [[("award_name", JsonVal.str "A")]] none (some [])).ending = RunExit.normal ∧
    (enrich_awards_with_perplexity none (fun _ => RecEvent.api ApiOutcome.timeout false)
        [[("award_name", JsonVal.str "A")]] none (some [])).checkpoint = some [] :=
  ⟨(checkpoint_write_failure_swallowed none (fun _ => RecEvent.api ApiOutcome.timeout false)
      [[("award_name", JsonVal.str "A")]] (some []) (by decide)
      (fun j => ⟨ApiOutcome.timeout, false, rfl⟩)).1,
   (checkpoint_write_failure_swallowed none (fun _ => RecEvent.api ApiOutcome.timeout false)
      [[("award_name", JsonVal.str "A")]] (some []) (by decide)
      (fun j => ⟨ApiOutcome.timeout, false, rfl⟩)).2.2
     (fun j hj => ⟨ApiOutcome.timeout, rfl⟩)⟩

theorem storeGet_extend (st : Store) (x : Dict) (a : Nat) (h : a < st.length) :
    storeGet (st ++ [x]) a = storeGet st a := by
  unfold storeGet
  simp [List.getD_eq_getElem?_getD, List.getElem?_append_left h]

theorem storeGet_set_ne (st : Store) (i a : Nat) (v : Dict) (h : ¬ i = a) :
    storeGet (st.set i v) a = storeGet st a := by
  unfold storeGet
  simp [List.getD_eq_getElem?_getD, List.getElem?_set_ne h]

theorem getAwardInfoSt_cases (apiKey : Option String) (o : ApiOutcome) (st : Store)
    (a : Nat) :
    getAwardInfoSt apiKey o st a = st ∨
    ∃ v, getAwardInfoSt apiKey o st a = st.set a v := by
  cases apiKey with
  | none => exact Or.inl rfl
  | some k =>
    cases o with
    | timeout => exact Or.inl rfl
    | requestError => exact Or.inl rfl
    | httpError c => exact Or.inl rfl
    | noChoices => exact Or.inl rfl
    | content s =>
      have hgoal : getAwardInfoSt (some k) (ApiOutcome.content s) st a =
          (match extract s with
           | ExtractResult.ok payload =>
             List.set st a (dinsert (storeGet st a) "enriched_data" payload)
           | _ => st) := rfl
      cases hx : extract s with
      | ok payload =>
        refine Or.inr ⟨dinsert (storeGet st a) "enriched_data" payload, ?_⟩
        rw [hgoal, hx]
      | noJsonFound => exact Or.inl (by rw [hgoal, hx])
      | malformedJson => exact Or.inl (by rw [hgoal, hx])
      | missingEnvelope => exact Or.inl (by rw [hgoal, hx])

theorem getAwardInfoSt_step (apiKey : Option String) (o : ApiOutcome) (st : Store)
    (x : Dict) :
    st.length ≤ (getAwardInfoSt apiKey o (st ++ [x]) st.length).length ∧
    ∀ a, a < st.length →
      storeGet (getAwardInfoSt apiKey o (st ++ [x]) st.length) a = storeGet st a := by
  rcases getAwardInfoSt_cases apiKey o (st ++ [x]) st.length with h | ⟨v, h⟩
  · rw [h]
    exact ⟨by simp, fun a ha => storeGet_extend st x a ha⟩
  · rw [h]
    constructor
    · simp
    · intro a ha
      rw [storeGet_set_ne _ _ _ _ (by omega)]
      exact storeGet_extend st x a ha

theorem enrichLoopSt_preserves (apiKey : Option String) (events : Nat → RecEvent)
    (addrs : List Nat) :
    ∀ (i : Nat) (st : Store) (out : List Nat),
    st.length ≤ (enrichLoopSt apiKey events i addrs st out).1.length ∧
    ∀ a, a < st.length →
      storeGet (enrichLoopSt apiKey events i addrs st out).1 a = storeGet st a := by
  induction addrs with
  | nil =>
    intro i st out
    exact ⟨Nat.le_refl _, fun a _ => rfl⟩
  | cons x rest ih =>
    intro i st out
    simp only [enrichLoopSt]
    by_cases hk : (dgetOpt (storeGet st x) "award_name").isNone
    · rw [if_pos hk]
      exact ⟨Nat.le_refl _, fun a _ => rfl⟩
    · rw [if_neg hk]
      cases hev : events i with
      | interrupt =>
        exact ⟨Nat.le_refl _, fun a _ => rfl⟩
      | api o w =>
        have hstep := getAwardInfoSt_step apiKey o st (storeGet st x)
        have hrec := ih (i + 1)
          (getAwardInfoSt apiKey o (st ++ [storeGet st x]) st.length) (out ++ [st.length])
        constructor
        · show st.length ≤ (enrichLoopSt apiKey events (i + 1) rest
            (getAwardInfoSt apiKey o (st ++ [storeGet st x]) st.length)
            (out ++ [st.length])).1.length
          exact Nat.le_trans hstep.1 hrec.1
        · intro a ha
          show storeGet (enrichLoopSt apiKey events (i + 1) rest
            (getAwardInfoSt apiKey o (st ++ [storeGet st x]) st.length)
            (out ++ [st.length])).1 a = storeGet st a
          rw [hrec.2 a (Nat.lt_of_lt_of_le ha hstep.1), hstep.2 a ha]

theorem tailSt_preserves (addrs : List Nat) :
    ∀ (st : Store) (out : List Nat),
    st.length ≤ (tailSt addrs st out).1.length ∧
    ∀ a, a < st.length → storeGet (tailSt addrs st out).1 a = storeGet st a := by
  induction addrs with
  | nil =>
    intro st out
    exact ⟨Nat.le_refl _, fun a _ => rfl⟩
  | cons x rest ih =>
    intro st out
    have hrec := ih ((st ++ [storeGet st x]).set st.length
      (dinsert (storeGet (st ++ [storeGet st x]) st.length) "enriched_data" limitSentinel))
      (out ++ [st.length])
    have hlen : st.length ≤ ((st ++ [storeGet st x]).set st.length
        (dinsert (storeGet (st ++ [storeGet st x]) st.length) "enriched_data"
          limitSentinel)).length := by
      simp
    constructor
    · show st.length ≤ (tailSt rest ((st ++ [storeGet st x]).set st.length
        (dinsert (storeGet (st ++ [storeGet st x]) st.length) "enriched_data" limitSentinel))
        (out ++ [st.length])).1.length
      exact Nat.le_trans hlen hrec.1
    · intro a ha
      show storeGet (tailSt rest ((st ++ [storeGet st x]).set st.length
        (dinsert (storeGet (st ++ [storeGet st x]) st.length) "enriched_data" limitSentinel))
        (out ++ [st.length])).1 a = storeGet st a
      rw [hrec.2 a (Nat.lt_of_lt_of_le ha hlen)]
      rw [storeGet_set_ne _ _ _ _ (by omega)]
      exact storeGet_extend st _ a ha

/-- C10: the enrichment run never mutates its input records — in the heap
model, where `award.copy()` allocates a fresh cell and successful
enrichment mutates only that copy, every pre-existing heap cell (in
particular every record of the loaded input list) is unchanged after the
full run, so no input record gains an `enriched_data` key. -/
theorem enrich_no_input_mutation (apiKey : Option String) (events : Nat → RecEvent)
    (awards : List Nat) (limit : Option Int) (st : Store) (a : Nat)
    (ha : a < st.length) :
    storeGet (enrichSt apiKey events awards limit st).1 a = storeGet st a := by
  have hloop := enrichLoopSt_preserves apiKey events (workingSubset awards limit) 0 st []
  simp only [enrichSt]
  cases hend : (enrichLoopSt apiKey events 0 (workingSubset awards limit) st []).2.2 with
  | interrupted => exact hloop.2 a ha
  | keyError => exact hloop.2 a ha
  | normal =>
    cases limit with
    | none => exact hloop.2 a ha
    | some n =>
      show storeGet (if n ≠ 0 ∧ n < (awards.length : Int) then
          ((tailSt (pySliceFrom awards n)
              (enrichLoopSt apiKey events 0 (workingSubset awards (some n)) st []).1
              (enrichLoopSt apiKey events 0 (workingSubset awards (some n)) st []).2.1).1,
            (tailSt (pySliceFrom awards n)
              (enrichLoopSt apiKey events 0 (workingSubset awards (some n)) st []).1
              (enrichLoopSt apiKey events 0 (workingSubset awards (some n)) st []).2.1).2,
            RunExit.normal)
        else enrichLoopSt apiKey events 0 (workingSubset awards (some n)) st []).1 a
        = storeGet st a
      by_cases hcond : n ≠ 0 ∧ n < (awards.length : Int)
      · rw [if_pos hcond]
        have htail := tailSt_preserves (pySliceFrom awards n)
          (enrichLoopSt apiKey events 0 (workingSubset awards (some n)) st []).1
          (enrichLoopSt apiKey events 0 (workingSubset awards (some n)) st []).2.1
        show storeGet (tailSt (pySliceFrom awards n)
            (enrichLoopSt apiKey events 0 (workingSubset awards (some n)) st []).1
            (enrichLoopSt apiKey events 0 (workingSubset awards (some n)) st []).2.1).1 a
          = storeGet st a
        rw [htail.2 a (Nat.lt_of_lt_of_le ha hloop.1)]
        exact hloop.2 a ha
      · rw [if_neg hcond]
        exact hloop.2 a ha

/-- C10 witness: a successful one-record run on a one-cell heap leaves
the input record at address 0 unchanged (the payload lands only on the
copy). -/
theorem enrich_no_input_mutation_witness :
    0 < ([[("award_name", JsonVal.str "A")]] : Store).length ∧
    storeGet (enrichSt (some "key")
        (fun _ => RecEvent.api (ApiOutcome.content "\x7b\"bookAward\": \x7b\"x\": 1\x7d\x7d") true)
        [0] none [[("award_name", JsonVal.str "A")]]).1 0
      = [("award_name", JsonVal.str "A")] :=
  ⟨by decide,
   enrich_no_input_mutation (some "key")
     (fun _ => RecEvent.api (ApiOutcome.content "\x7b\"bookAward\": \x7b\"x\": 1\x7d\x7d") true)
     [0] none [[("award_name", JsonVal.str "A")]] 0 (by decide)⟩
